import Mathlib

/-!
# RelayGraph — verification of the hybrid retrieval and ingestion core

A shallow embedding of the retrieval/ingestion core of the RelayGraph
repository, together with theorems settling the specification claims.

Conventions of the embedding:
* JavaScript numbers are modelled as rationals (`ℚ`); all scores in the
  code are finite and no NaN/Infinity path is exercised.
* JavaScript `Map` objects are modelled as insertion-ordered association
  lists (`List (κ × ν)`), matching the iteration-order semantics of `Map`.
* `Array.prototype.sort` is stable (ECMA-262); it is modelled by a stable
  insertion sort `sortByDesc` (descending by the comparator key, ties kept
  in input order), matching the `(a, b) => b.score - a.score` comparators.
* The external stores (Postgres, Neo4j) and the language-model client are
  oracles: their responses are passed in as function arguments, and writes
  are modelled by explicit state passing.
-/

namespace RelayGraph

/-- The `SearchMethod` union type of `src/interfaces`: `"bm25" | "semantic" | "graph"`. -/
inductive SearchMethod where
  | bm25
  | semantic
  | graph
deriving DecidableEq, Repr

/-- `ISearchResult<T>`: an item found by one search method, with the
method-normalized score and the originating method tag. -/
structure SearchResult (α : Type) where
  item : α
  score : ℚ
  source : SearchMethod
deriving DecidableEq, Repr

/-- `IRankedResult<T>`: output of a reranker — item, fused score, and the
set of source methods (modelled as an insertion-ordered duplicate-free list,
matching the JS `Set`). -/
structure RankedResult (α : Type) where
  item : α
  score : ℚ
  sources : List SearchMethod
deriving DecidableEq, Repr

/-- Stable insertion of `a` into a list sorted descending by `f`: `a` is
placed before the first element whose key is not greater than `a`'s, hence
after all earlier-inserted elements with an equal key. -/
def insertByDesc {α : Type} (f : α → ℚ) (a : α) : List α → List α
  | [] => [a]
  | b :: bs => if f b > f a then b :: insertByDesc f a bs else a :: b :: bs

/-- Stable descending sort, the model of the JS stable
`array.sort((a, b) => b.score - a.score)`. -/
def sortByDesc {α : Type} (f : α → ℚ) : List α → List α
  | [] => []
  | a :: as => insertByDesc f a (sortByDesc f as)

/-! ## RRF reranker (`src/modules/retrieval/rerankers.ts`, `RRFReranker.rerank`) -/

/-- One accumulator entry of the `itemScores` map in `RRFReranker.rerank`
(and of the `itemMap` in `NoOpReranker.rerank`): the JS `Map` key is
`JSON.stringify(result.item)`, i.e. structural equality of the item, which
the embedding renders as equality of `item` itself. -/
structure ScoreEntry (α : Type) where
  item : α
  score : ℚ
  sources : List SearchMethod
deriving DecidableEq, Repr

/-- `Set.prototype.add` on the insertion-ordered model of a JS `Set`. -/
def addSource (l : List SearchMethod) (s : SearchMethod) : List SearchMethod :=
  if s ∈ l then l else l ++ [s]

/-- The per-rank reciprocal-rank-fusion score `1 / (this.k + rank + 1)`
(rerankers.ts line 38); `rank` is the 0-based position in the per-method
descending sort. -/
def rrfScore (k : ℚ) (rank : ℕ) : ℚ := 1 / (k + rank + 1)

/-- `itemScores` update for one result at one rank: create the entry on
first sight, then `entry.score += rrfScore; entry.sources.add(source)`. -/
def addRRF {α : Type} [DecidableEq α] (x : α) (src : SearchMethod) (c : ℚ) :
    List (ScoreEntry α) → List (ScoreEntry α)
  | [] => [⟨x, c, [src]⟩]
  | e :: rest =>
    if e.item = x then ⟨e.item, e.score + c, addSource e.sources src⟩ :: rest
    else e :: addRRF x src c rest

/-- The inner `for (let rank = 0; ...)` loop of `RRFReranker.rerank` over one
source's sorted results, accumulating into `itemScores`. -/
def processGroup {α : Type} [DecidableEq α] (k : ℚ) (src : SearchMethod) :
    ℕ → List (SearchResult α) → List (ScoreEntry α) → List (ScoreEntry α)
  | _, [], acc => acc
  | rank, r :: rest, acc =>
    processGroup k src (rank + 1) rest (addRRF r.item src (rrfScore k rank) acc)

/-- `resultsBySource`: group results by source method, JS `Map` semantics —
groups appear in order of each method's first occurrence, and each group
lists its results in insertion order. -/
def insertGrouped {α : Type} (acc : List (SearchMethod × List (SearchResult α)))
    (r : SearchResult α) : List (SearchMethod × List (SearchResult α)) :=
  match acc with
  | [] => [(r.source, [r])]
  | (m, l) :: rest =>
    if m = r.source then (m, l ++ [r]) :: rest else (m, l) :: insertGrouped rest r

/-- The `resultsBySource` map of `RRFReranker.rerank`. -/
def groupBySource {α : Type} (rs : List (SearchResult α)) :
    List (SearchMethod × List (SearchResult α)) :=
  rs.foldl insertGrouped []

/-- `RRFReranker.rerank`: group by source, sort each group descending by raw
score (stable), accumulate `1/(k + rank + 1)` per occurrence into the
`itemScores` map, then emit the entries sorted descending by fused score.
The `_query` argument is ignored by the source code. -/
def rrfRerank {α : Type} [DecidableEq α] (k : ℚ) (_query : String)
    (results : List (SearchResult α)) : List (RankedResult α) :=
  let groups := groupBySource results
  let entries := groups.foldl
    (fun acc g => processGroup k g.1 0 (sortByDesc (·.score) g.2) acc) []
  sortByDesc (·.score) (entries.map fun e => ⟨e.item, e.score, e.sources⟩)

/-- Summed fused score carried by `x` in a ranked output (the summed RRF
score of the claim; each item occurs in at most one output entry, so the sum
is that entry's score). -/
def fusedScore {α : Type} [DecidableEq α] (x : α) (out : List (RankedResult α)) : ℚ :=
  ((out.filter (fun e => e.item = x)).map (·.score)).sum

/-- Sum of scores of the accumulator entries carrying item `x`. -/
def entriesScore {α : Type} [DecidableEq α] (x : α) : List (ScoreEntry α) → ℚ
  | [] => 0
  | e :: rest => (if e.item = x then e.score else 0) + entriesScore x rest

/-- The 0-based ranks (positions counted from `rank`) at which item `x`
occurs in a list of results. -/
def ranksOf {α : Type} [DecidableEq α] (x : α) : ℕ → List (SearchResult α) → List ℕ
  | _, [] => []
  | rank, r :: rest =>
    (if r.item = x then [rank] else []) ++ ranksOf x (rank + 1) rest

/-- Total RRF contribution of item `x` inside one source group, walking the
(sorted) group from position `rank`. -/
def groupContrib {α : Type} [DecidableEq α] (k : ℚ) (x : α) :
    ℕ → List (SearchResult α) → ℚ
  | _, [] => 0
  | rank, r :: rest =>
    (if r.item = x then rrfScore k rank else 0) + groupContrib k x (rank + 1) rest

theorem insertByDesc_perm {α : Type} (f : α → ℚ) (a : α) (l : List α) :
    List.Perm (insertByDesc f a l) (a :: l) := by
  induction l with
  | nil => simp [insertByDesc]
  | cons b bs ih =>
    by_cases h : f b > f a
    · simp only [insertByDesc, if_pos h]
      exact (ih.cons b).trans (List.Perm.swap a b bs)
    · simp [insertByDesc, if_neg h]

theorem sortByDesc_perm {α : Type} (f : α → ℚ) (l : List α) :
    List.Perm (sortByDesc f l) l := by
  induction l with
  | nil => rfl
  | cons a as ih =>
    exact (insertByDesc_perm f a (sortByDesc f as)).trans (ih.cons a)

theorem fusedScore_perm {α : Type} [DecidableEq α] (x : α)
    {l l' : List (RankedResult α)} (h : List.Perm l l') :
    fusedScore x l = fusedScore x l' := by
  unfold fusedScore
  exact List.Perm.sum_eq (List.Perm.map _ (List.Perm.filter _ h))

theorem entriesScore_addRRF {α : Type} [DecidableEq α] (x y : α)
    (src : SearchMethod) (c : ℚ) (l : List (ScoreEntry α)) :
    entriesScore x (addRRF y src c l) =
      entriesScore x l + (if y = x then c else 0) := by
  induction l with
  | nil => by_cases h : y = x <;> simp [addRRF, entriesScore, h]
  | cons e rest ih =>
    by_cases h : e.item = y
    · by_cases hx : y = x <;> simp [addRRF, entriesScore, h, hx] <;> ring
    · have hx : (e.item = x) → ¬ (y = x) := by rintro rfl h2; exact h h2.symm
      by_cases h2 : e.item = x
      · have hxy : ¬ (x = y) := fun hh => hx h2 hh.symm
        simp [addRRF, entriesScore, h, h2, hx h2, hxy, ih]
      · simp [addRRF, entriesScore, h, h2, ih]

theorem entriesScore_processGroup {α : Type} [DecidableEq α] (k : ℚ) (x : α)
    (src : SearchMethod) (l : List (SearchResult α)) :
    ∀ (rank : ℕ) (acc : List (ScoreEntry α)),
      entriesScore x (processGroup k src rank l acc) =
        entriesScore x acc + groupContrib k x rank l := by
  induction l with
  | nil => intro rank acc; simp [processGroup, groupContrib]
  | cons r rest ih =>
    intro rank acc
    rw [processGroup, ih, entriesScore_addRRF]
    by_cases h : r.item = x <;> simp [groupContrib, h] <;> ring

theorem entriesScore_fold_groups {α : Type} [DecidableEq α] (k : ℚ) (x : α)
    (groups : List (SearchMethod × List (SearchResult α))) :
    ∀ acc : List (ScoreEntry α),
      entriesScore x (groups.foldl
        (fun acc g => processGroup k g.1 0 (sortByDesc (·.score) g.2) acc) acc) =
      entriesScore x acc +
        (groups.map (fun g => groupContrib k x 0 (sortByDesc (·.score) g.2))).sum := by
  induction groups with
  | nil => intro acc; simp
  | cons g rest ih =>
    intro acc
    simp only [List.foldl_cons, List.map_cons, List.sum_cons]
    rw [ih, entriesScore_processGroup]
    ring

theorem fusedScore_map_entries {α : Type} [DecidableEq α] (x : α)
    (l : List (ScoreEntry α)) :
    fusedScore x (l.map fun e => ⟨e.item, e.score, e.sources⟩) = entriesScore x l := by
  induction l with
  | nil => simp [fusedScore, entriesScore]
  | cons e rest ih =>
    by_cases h : e.item = x <;>
      simp [fusedScore, entriesScore, h, ← ih, List.filter]

/-- Score characterization of `RRFReranker.rerank`: the fused score of any
item is the sum, over the per-method groups, of its reciprocal-rank
contributions in that group's stable descending sort. -/
theorem fusedScore_rrfRerank {α : Type} [DecidableEq α] (k : ℚ) (q : String)
    (results : List (SearchResult α)) (x : α) :
    fusedScore x (rrfRerank k q results) =
      ((groupBySource results).map
        (fun g => groupContrib k x 0 (sortByDesc (·.score) g.2))).sum := by
  unfold rrfRerank
  rw [fusedScore_perm x (sortByDesc_perm (·.score) _), fusedScore_map_entries,
    entriesScore_fold_groups]
  simp [entriesScore]

theorem groupContrib_eq_ranks {α : Type} [DecidableEq α] (k : ℚ) (x : α)
    (l : List (SearchResult α)) : ∀ rank : ℕ,
    groupContrib k x rank l = ((ranksOf x rank l).map (rrfScore k)).sum := by
  induction l with
  | nil => intro rank; simp [groupContrib, ranksOf]
  | cons r rest ih =>
    intro rank
    by_cases h : r.item = x <;> simp [groupContrib, ranksOf, h, ih]

theorem rrfScore_pos (k : ℚ) (rank : ℕ) (hk : 0 ≤ k) : 0 < rrfScore k rank := by
  have : (0 : ℚ) < k + rank + 1 := by positivity
  exact div_pos one_pos this

theorem groupContrib_nonneg {α : Type} [DecidableEq α] (k : ℚ) (hk : 0 ≤ k)
    (x : α) (l : List (SearchResult α)) (rank : ℕ) :
    0 ≤ groupContrib k x rank l := by
  induction l generalizing rank with
  | nil => simp [groupContrib]
  | cons r rest ih =>
    have h1 := ih (rank + 1)
    by_cases h : r.item = x
    · have := rrfScore_pos k rank hk
      simp only [groupContrib, h, if_pos]
      linarith
    · simpa [groupContrib, h] using h1

/-- If `a ∈ l` and `b ∈ l` with `a ≠ b` and `f` nonnegative on `l`, the two
members' values together bound the sum from below. -/
theorem two_mem_le_sum {α : Type} [DecidableEq α] (f : α → ℚ) (l : List α)
    (a b : α) (ha : a ∈ l) (hb : b ∈ l) (hab : a ≠ b)
    (hpos : ∀ x ∈ l, 0 ≤ f x) : f a + f b ≤ (l.map f).sum := by
  have h1 : List.Perm l (a :: l.erase a) := List.perm_cons_erase ha
  have hb' : b ∈ l.erase a := (List.mem_erase_of_ne (fun h => hab h.symm)).mpr hb
  have h2 : List.Perm (l.erase a) (b :: (l.erase a).erase b) :=
    List.perm_cons_erase hb'
  have hsum1 : (l.map f).sum = f a + ((l.erase a).map f).sum := by
    rw [List.Perm.sum_eq (List.Perm.map f h1)]; simp
  have hsum2 : ((l.erase a).map f).sum = f b + (((l.erase a).erase b).map f).sum := by
    rw [List.Perm.sum_eq (List.Perm.map f h2)]; simp
  have hrest : 0 ≤ (((l.erase a).erase b).map f).sum := by
    apply List.sum_nonneg
    intro y hy
    simp only [List.mem_map] at hy
    obtain ⟨z, hz, rfl⟩ := hy
    exact hpos z (List.mem_of_mem_erase (List.mem_of_mem_erase hz))
  linarith [hsum1, hsum2, hrest]

theorem keys_insertGrouped {α : Type} (acc : List (SearchMethod × List (SearchResult α)))
    (r : SearchResult α) :
    (insertGrouped acc r).map Prod.fst =
      if r.source ∈ acc.map Prod.fst then acc.map Prod.fst
      else acc.map Prod.fst ++ [r.source] := by
  induction acc with
  | nil => simp [insertGrouped]
  | cons g rest ih =>
    obtain ⟨m, l⟩ := g
    by_cases h : m = r.source
    · simp [insertGrouped, h]
    · have h' : ¬ (r.source = m) := fun hh => h hh.symm
      simp only [insertGrouped, if_neg h, List.map_cons, List.mem_cons, h']
      rw [ih]
      by_cases h2 : r.source ∈ rest.map Prod.fst <;> simp [h2, h']

theorem nodup_keys_insertGrouped {α : Type}
    (acc : List (SearchMethod × List (SearchResult α))) (r : SearchResult α)
    (h : (acc.map Prod.fst).Nodup) : ((insertGrouped acc r).map Prod.fst).Nodup := by
  rw [keys_insertGrouped]
  by_cases h2 : r.source ∈ acc.map Prod.fst
  · simpa [h2] using h
  · simpa [h2, List.nodup_append] using h

/-- The per-method groups of `resultsBySource` carry pairwise-distinct
method keys (a JS `Map` keyed by method). -/
theorem nodup_keys_groupBySource {α : Type} (rs : List (SearchResult α)) :
    ((groupBySource rs).map Prod.fst).Nodup := by
  suffices h : ∀ acc : List (SearchMethod × List (SearchResult α)),
      (acc.map Prod.fst).Nodup → ((rs.foldl insertGrouped acc).map Prod.fst).Nodup by
    exact h [] (by simp)
  induction rs with
  | nil => intro acc hacc; simpa using hacc
  | cons r rest ih =>
    intro acc hacc
    exact ih (insertGrouped acc r) (nodup_keys_insertGrouped acc r hacc)

/-- If the list's keys are duplicate-free, `a` is a member, and `f` vanishes
on every member with a different key, the mapped sum collapses to `f a`. -/
theorem sum_map_single_key {κ α : Type} [DecidableEq κ] (key : α → κ)
    (f : α → ℚ) (l : List α) (a : α) (ha : a ∈ l)
    (hnd : (l.map key).Nodup) (h0 : ∀ b ∈ l, key b ≠ key a → f b = 0) :
    (l.map f).sum = f a := by
  induction l with
  | nil => cases ha
  | cons b rest ih =>
    simp only [List.map_cons, List.nodup_cons, List.mem_map] at hnd
    rcases List.mem_cons.mp ha with rfl | hrest
    · have hz : (rest.map f).sum = 0 := by
        apply List.sum_eq_zero
        intro y hy
        simp only [List.mem_map] at hy
        obtain ⟨c, hc, rfl⟩ := hy
        refine h0 c (List.mem_cons_of_mem _ hc) (fun hEq => hnd.1 ⟨c, hc, hEq⟩)
      simp [hz]
    · have hbz : f b = 0 := by
        refine h0 b (List.mem_cons_self b rest) (fun hEq => ?key)
        exact hnd.1 ⟨a, hrest, hEq.symm⟩
      simp only [List.map_cons, List.sum_cons, hbz, zero_add]
      exact ih hrest hnd.2 (fun c hc hne => h0 c (List.mem_cons_of_mem _ hc) hne)

/-- C1 (amended) — RRF multi-method dominance under a rank-side condition:
if item `A` occurs (once) in the result groups of two distinct methods, item
`B` occurs only in one of those groups, and `A`'s 0-based rank in the shared
method's descending sort is at most `B`'s rank there (in particular when the
raw scores tie and `A` precedes `B` in insertion order, since the sort is
stable), then `A`'s summed RRF score is strictly larger than `B`'s, for every
nonnegative damping constant `k`. -/
theorem rrf_multi_method_dominance {α : Type} [DecidableEq α] (k : ℚ)
    (hk : 0 ≤ k) (q : String) (results : List (SearchResult α)) (A B : α)
    (mA mB : SearchMethod) (lA lB : List (SearchResult α)) (rA rA2 rB : ℕ)
    (hmemA : (mA, lA) ∈ groupBySource results)
    (hmemB : (mB, lB) ∈ groupBySource results)
    (hne : mA ≠ mB)
    (hrB : ranksOf B 0 (sortByDesc (·.score) lB) = [rB])
    (hrA : ranksOf A 0 (sortByDesc (·.score) lB) = [rA])
    (hrA2 : ranksOf A 0 (sortByDesc (·.score) lA) = [rA2])
    (hshared : rA ≤ rB)
    (honly : ∀ g ∈ groupBySource results, g.1 ≠ mB →
      ranksOf B 0 (sortByDesc (·.score) g.2) = []) :
    fusedScore B (rrfRerank k q results) < fusedScore A (rrfRerank k q results) := by
  set f : (SearchMethod × List (SearchResult α)) → ℚ :=
    fun g => groupContrib k A 0 (sortByDesc (·.score) g.2) with hf
  set fB : (SearchMethod × List (SearchResult α)) → ℚ :=
    fun g => groupContrib k B 0 (sortByDesc (·.score) g.2) with hfB
  have hB : fusedScore B (rrfRerank k q results) = rrfScore k rB := by
    rw [fusedScore_rrfRerank]
    have hsingle := sum_map_single_key Prod.fst fB (groupBySource results)
      (mB, lB) hmemB (nodup_keys_groupBySource results) ?h0
    case h0 =>
      intro g hg hgne
      simp only [hfB]
      rw [groupContrib_eq_ranks, honly g hg hgne]
      simp
    rw [hsingle]
    simp only [hfB]
    rw [groupContrib_eq_ranks, hrB]
    simp
  have hA : rrfScore k rA2 + rrfScore k rA ≤ fusedScore A (rrfRerank k q results) := by
    rw [fusedScore_rrfRerank]
    have hle := two_mem_le_sum f (groupBySource results) (mA, lA) (mB, lB)
      hmemA hmemB (fun hEq => hne (congrArg Prod.fst hEq))
      (fun g _ => groupContrib_nonneg k hk A _ 0)
    have h1 : f (mA, lA) = rrfScore k rA2 := by
      simp only [hf]; rw [groupContrib_eq_ranks, hrA2]; simp
    have h2 : f (mB, lB) = rrfScore k rA := by
      simp only [hf]; rw [groupContrib_eq_ranks, hrA]; simp
    rw [h1, h2] at hle
    exact hle
  have hmono : rrfScore k rB ≤ rrfScore k rA := by
    unfold rrfScore
    apply one_div_le_one_div_of_le
    · positivity
    · have : (rA : ℚ) ≤ (rB : ℚ) := by exact_mod_cast hshared
      linarith
  have hpos := rrfScore_pos k rA2 hk
  rw [hB]
  calc rrfScore k rB ≤ rrfScore k rA := hmono
    _ < rrfScore k rA2 + rrfScore k rA := by linarith
    _ ≤ fusedScore A (rrfRerank k q results) := hA

/-! ## NoOp reranker (`rerankers.ts`, `NoOpReranker.rerank`) -/

/-- One step of the `itemMap` accumulation in `NoOpReranker.rerank`: on
first sight an entry is created with the result's score (the code sets the
score and immediately maxes it with itself) and its source added; on a
repeat the score is maxed and the source added. -/
def noopAdd {α : Type} [DecidableEq α] (acc : List (ScoreEntry α))
    (r : SearchResult α) : List (ScoreEntry α) :=
  match acc with
  | [] => [⟨r.item, r.score, [r.source]⟩]
  | e :: rest =>
    if e.item = r.item then
      ⟨e.item, max e.score r.score, addSource e.sources r.source⟩ :: rest
    else e :: noopAdd rest r

/-- `NoOpReranker.rerank`: deduplicate by structural item equality keeping
the maximum score seen across methods, then sort descending by score.
The `_query` argument is ignored by the source code. -/
def noopRerank {α : Type} [DecidableEq α] (_query : String)
    (results : List (SearchResult α)) : List (RankedResult α) :=
  sortByDesc (·.score)
    ((results.foldl noopAdd []).map fun e => ⟨e.item, e.score, e.sources⟩)

/-- Search-result fixture for the C1 witness: item `1` is found by `bm25`
(raw score 5, inserted first) and by `semantic` (raw score 1); item `2` is
found only by `bm25` with the same raw score 5. -/
def rrfWitnessResults : List (SearchResult ℕ) :=
  [⟨1, 5, .bm25⟩, ⟨2, 5, .bm25⟩, ⟨1, 1, .semantic⟩]

/-- Search-result fixture refuting C1 as stated: item `1` is found by two
methods (`bm25` raw score 5, `semantic` raw score 1, at semantic rank 2),
item `2` only by `bm25` with the equal raw score 5 but inserted first. -/
def rrfCounterexampleResults : List (SearchResult ℕ) :=
  [⟨2, 5, .bm25⟩, ⟨1, 5, .bm25⟩, ⟨3, 3, .semantic⟩, ⟨4, 2, .semantic⟩,
    ⟨1, 1, .semantic⟩]

/-- C1 counterexample — the claim fails as stated: in
`rrfCounterexampleResults`, item `1` appears in two methods' result sets
(`bm25` and `semantic`), item `2` appears only in `bm25` with an equal raw
score there (both 5), yet with damping constant `k = 0` the two-method item
`1` ends up with a strictly *smaller* summed RRF score than the one-method
item `2`: `1/2 + 1/3 < 1`. -/
theorem rrf_monotonicity_counterexample :
    ((rrfCounterexampleResults.filter (fun r => r.item == 1)).map
        (fun r => r.source) = [.bm25, .semantic])
    ∧ ((rrfCounterexampleResults.filter (fun r => r.item == 2)).map
        (fun r => r.source) = [.bm25])
    ∧ ((rrfCounterexampleResults.filter
        (fun r => r.item == 2 || (r.item == 1 && r.source == SearchMethod.bm25))).map
        (fun r => r.score) = [5, 5])
    ∧ fusedScore 1 (rrfRerank 0 "query" rrfCounterexampleResults)
        < fusedScore 2 (rrfRerank 0 "query" rrfCounterexampleResults) := by
  refine ⟨by norm_num [rrfCounterexampleResults], by norm_num [rrfCounterexampleResults],
    by norm_num [rrfCounterexampleResults]; simp, ?lt⟩
  norm_num [rrfCounterexampleResults, rrfRerank, groupBySource, insertGrouped,
    sortByDesc, insertByDesc, processGroup, addRRF, addSource, rrfScore,
    fusedScore, List.filter]

/-- Witness for the amended C1 theorem at a concrete input: with `k = 60`,
item `1` (found by `semantic` and by `bm25`, where it precedes the equally
scored single-method item `2`) strictly outscores item `2`. -/
theorem rrf_multi_method_dominance_witness :
    fusedScore 2 (rrfRerank 60 "q" rrfWitnessResults)
      < fusedScore 1 (rrfRerank 60 "q" rrfWitnessResults) := by
  have hgroups : groupBySource rrfWitnessResults =
      [(SearchMethod.bm25, [⟨1, 5, .bm25⟩, ⟨2, 5, .bm25⟩]),
        (SearchMethod.semantic, [⟨1, 1, .semantic⟩])] := by
    simp [rrfWitnessResults, groupBySource, insertGrouped]
  refine rrf_multi_method_dominance 60 (by norm_num) "q" rrfWitnessResults 1 2
    .semantic .bm25 [⟨1, 1, .semantic⟩] [⟨1, 5, .bm25⟩, ⟨2, 5, .bm25⟩]
    0 0 1 ?_ ?_ ?_ ?_ ?_ ?_ ?_ ?_
  · rw [hgroups]; simp
  · rw [hgroups]; simp
  · simp
  · norm_num [sortByDesc, insertByDesc, ranksOf]
  · norm_num [sortByDesc, insertByDesc, ranksOf]
  · norm_num [sortByDesc, insertByDesc, ranksOf]
  · norm_num
  · intro g hg hgne
    rw [hgroups] at hg
    rcases (List.mem_cons.mp hg) with rfl | hg2
    · exact absurd rfl hgne
    · rcases (List.mem_cons.mp hg2) with rfl | hg3
      · norm_num [sortByDesc, insertByDesc, ranksOf]
      · cases hg3

/-- C10 — query-noninterference of RRF and no-op fusion: both rerankers
ignore the query text entirely; their outputs are determined by the result
list alone. -/
theorem rerank_query_noninterference {α : Type} [DecidableEq α]
    (q1 q2 : String) (k : ℚ) (results : List (SearchResult α)) :
    rrfRerank k q1 results = rrfRerank k q2 results
    ∧ noopRerank q1 results = noopRerank q2 results :=
  ⟨rfl, rfl⟩

/-! ## Lexical (BM25) chunk score normalization
(`HybridRetriever.searchChunksMultiMethod`, bm25 branch) -/

/-- A raw row returned by the lexical engine (`this.pg.searchBM25`). -/
structure BM25Chunk where
  id : String
  content : String
  score : ℚ
deriving DecidableEq, Repr

/-- The chunk item carried into reranking (`ChunkSearchResult`). -/
structure ChunkItem where
  id : String
  content : String
  score : ℚ
deriving DecidableEq, Repr

/-- `const maxScore = Math.max(...chunks.map((c) => c.score), 1)`. -/
def bm25Divisor (chunks : List BM25Chunk) : ℚ :=
  (chunks.map (·.score)).foldr max 1

/-- The bm25 branch of `HybridRetriever.searchChunksMultiMethod`: each raw
row is emitted with score `chunk.score / maxScore`, tagged `bm25`. -/
def bm25ChunkResults (chunks : List BM25Chunk) : List (SearchResult ChunkItem) :=
  chunks.map fun c =>
    ⟨⟨c.id, c.content, c.score / bm25Divisor chunks⟩,
      c.score / bm25Divisor chunks, .bm25⟩

theorem le_bm25Divisor_of_mem (chunks : List BM25Chunk) (c : BM25Chunk)
    (hc : c ∈ chunks) : c.score ≤ bm25Divisor chunks := by
  unfold bm25Divisor
  induction chunks with
  | nil => cases hc
  | cons d rest ih =>
    rcases List.mem_cons.mp hc with rfl | h2
    · simp [le_max_iff]
    · simp only [List.map_cons, List.foldr_cons]
      exact (ih h2).trans (le_max_right _ _)

theorem bm25Divisor_le (chunks : List BM25Chunk) (b : ℚ) (h1 : 1 ≤ b)
    (hall : ∀ c ∈ chunks, c.score ≤ b) : bm25Divisor chunks ≤ b := by
  unfold bm25Divisor
  induction chunks with
  | nil => simpa using h1
  | cons d rest ih =>
    simp only [List.map_cons, List.foldr_cons, max_le_iff]
    refine ⟨hall d (List.mem_cons_self d rest), ih ?_⟩
    intro c hc
    exact hall c (List.mem_cons_of_mem d hc)

/-- C2 (amended) — lexical score normalization as the code performs it: the
divisor is `max(1, raw batch maximum)` (so it is at least `1` and never
zero); each emitted score is the raw score divided by that divisor; a raw
maximum that is at least `1` normalizes its row to exactly `1`; and when all
raw scores are `0` every emitted score is `0` (the divisor floor `1` is in
effect). The spec's unconditional "top hit is exactly 1.0" only holds when
the raw maximum reaches `1`. -/
theorem bm25_normalization_amended (chunks : List BM25Chunk) :
    (1 ≤ bm25Divisor chunks
      ∧ bm25Divisor chunks = max 1 ((chunks.map (·.score)).foldr max 0))
    ∧ ((bm25ChunkResults chunks).map (·.score) =
        chunks.map (fun c => c.score / bm25Divisor chunks))
    ∧ (∀ c ∈ chunks, 1 ≤ c.score → (∀ d ∈ chunks, d.score ≤ c.score) →
        c.score / bm25Divisor chunks = 1)
    ∧ ((∀ c ∈ chunks, c.score = 0) →
        ∀ r ∈ bm25ChunkResults chunks, r.score = 0) := by
  refine ⟨⟨?ge, ?eqmax⟩, ?scores, ?top, ?zero⟩
  case ge =>
    unfold bm25Divisor
    induction chunks with
    | nil => simp
    | cons d rest ih =>
      simp only [List.map_cons, List.foldr_cons, le_max_iff]
      exact Or.inr ih
  case eqmax =>
    unfold bm25Divisor
    induction chunks with
    | nil => simp
    | cons d rest ih =>
      simp only [List.map_cons, List.foldr_cons, ih]
      rw [max_left_comm]
  case scores =>
    unfold bm25ChunkResults
    rw [List.map_map]
    rfl
  case top =>
    intro c hc h1 hmax
    have hle := le_bm25Divisor_of_mem chunks c hc
    have hge := bm25Divisor_le chunks c.score h1 hmax
    have : bm25Divisor chunks = c.score := le_antisymm hge hle
    rw [this]
    have : c.score ≠ 0 := by linarith
    field_simp
  case zero =>
    intro hz r hr
    unfold bm25ChunkResults at hr
    simp only [List.mem_map] at hr
    obtain ⟨c, hc, rfl⟩ := hr
    simp [hz c hc]

/-- The concrete batch refuting C2 as stated: raw lexical scores `1/2` and
`1/5` (the engine's BM25 scores can be below `1`). -/
def bm25CexChunks : List BM25Chunk :=
  [⟨"c1", "x", 1/2⟩, ⟨"c2", "y", 1/5⟩]

/-- C2 counterexample — the claim fails as stated: for the batch with raw
scores `[1/2, 1/5]` the maximum raw score is `1/2`, but the emitted scores
are `[1/2, 1/5]` (division by the floor `1`), not the claimed
`[raw/maxRaw] = [1, 2/5]`, and no emitted score equals `1.0`. -/
theorem bm25_normalization_counterexample :
    ((bm25CexChunks.map (·.score)).foldr max 0 = 1/2)
    ∧ ((bm25ChunkResults bm25CexChunks).map (·.score) = [1/2, 1/5])
    ∧ ((bm25ChunkResults bm25CexChunks).map (·.score) ≠
        bm25CexChunks.map (fun c => c.score / ((bm25CexChunks.map (·.score)).foldr max 0)))
    ∧ (∀ r ∈ bm25ChunkResults bm25CexChunks, r.score ≠ 1) := by
  refine ⟨by norm_num [bm25CexChunks], ?_, ?_, ?_⟩
  · norm_num [bm25CexChunks, bm25ChunkResults, bm25Divisor]
  · norm_num [bm25CexChunks, bm25ChunkResults, bm25Divisor]
  · intro r hr
    have h2 : (bm25ChunkResults bm25CexChunks).map (·.score) = [1/2, 1/5] := by
      norm_num [bm25CexChunks, bm25ChunkResults, bm25Divisor]
    intro h1
    have : (1 : ℚ) ∈ (bm25ChunkResults bm25CexChunks).map (·.score) :=
      List.mem_map.mpr ⟨r, hr, h1⟩
    rw [h2] at this
    norm_num at this

/-- Witness for the amended C2 theorem at a concrete batch: raw scores
`[3, 2]`, divisor `3`, top row normalizes to exactly `1`. -/
theorem bm25_normalization_amended_witness :
    bm25Divisor [⟨"a", "x", 3⟩, ⟨"b", "y", 2⟩] = 3
    ∧ (3 : ℚ) / bm25Divisor [⟨"a", "x", 3⟩, ⟨"b", "y", 2⟩] = 1 := by
  have h := (bm25_normalization_amended [⟨"a", "x", 3⟩, ⟨"b", "y", 2⟩]).2.2.1
    ⟨"a", "x", 3⟩ (by simp) (by norm_num)
    (by intro d hd; rcases List.mem_cons.mp hd with rfl | hd2
        · norm_num
        · simp only [List.mem_singleton] at hd2; rw [hd2]; norm_num)
  refine ⟨?_, h⟩
  norm_num [bm25Divisor]

/-! ## Knowledge-graph expansion (`HybridRetriever.buildKnowledgeGraph`) -/

/-- An entity reference inside a triple (`{ id, name, type }`). -/
structure EntityRef where
  id : String
  name : String
  type : String
deriving DecidableEq, Repr

/-- `IKnowledgeGraphTriple`. -/
structure KGTriple where
  source : EntityRef
  relationship : String
  fact : Option String
  target : EntityRef
deriving DecidableEq, Repr

/-- The triple identity used by the dedup check in `buildKnowledgeGraph`:
`t.source.id === rel.source.id && t.target.id === rel.target.id &&
t.relationship === rel.relationship`. -/
def sameTripleKey (t u : KGTriple) : Bool :=
  t.source.id == u.source.id && t.target.id == u.target.id
    && t.relationship == u.relationship

/-- The push step of the second (depth > 1) phase: append `t` only when no
accumulated triple shares its key and the limit is not yet reached. -/
def pushTriple (limit : ℕ) (acc : List KGTriple) (t : KGTriple) : List KGTriple :=
  if ¬ (acc.any fun u => sameTripleKey u t) ∧ acc.length < limit
  then acc ++ [t] else acc

/-- `HybridRetriever.buildKnowledgeGraph`: phase 1 takes the direct
neighbors of the seed ids capped at `limit` (no dedup); if `depth > 1` and
there are seeds, a BFS from at most 5 seeds yields additional entity ids
(the model's `bfsSearch` oracle returns the ids of the discovered entities),
of which at most 10 are expanded, their neighbor triples appended through
the dedup-and-limit check. The stores are oracles. -/
def buildKnowledgeGraph (getNeighbors : List String → List KGTriple)
    (bfsSearch : List String → ℕ → ℕ → List String)
    (entityIds : List String) (depth limit : ℕ) : List KGTriple :=
  let neighbors := getNeighbors entityIds
  let triples := neighbors.take limit
  if depth > 1 ∧ entityIds ≠ [] then
    let additionalEntityIds := bfsSearch (entityIds.take 5) depth limit
    if additionalEntityIds ≠ [] then
      let additionalNeighbors := getNeighbors (additionalEntityIds.take 10)
      additionalNeighbors.foldl (pushTriple limit) triples
    else triples
  else triples

/-- Pairwise distinctness of triples under the `(source id, target id,
relationship)` identity. -/
def distinctTripleKeys (l : List KGTriple) : Prop :=
  List.Pairwise (fun a b => sameTripleKey a b = false) l

theorem pushTriple_fold_length (limit : ℕ) (l : List KGTriple) :
    ∀ acc : List KGTriple, acc.length ≤ limit →
      (l.foldl (pushTriple limit) acc).length ≤ limit := by
  induction l with
  | nil => intro acc h; simpa using h
  | cons t rest ih =>
    intro acc h
    simp only [List.foldl_cons]
    apply ih
    unfold pushTriple
    by_cases hc : ¬ (acc.any fun u => sameTripleKey u t) ∧ acc.length < limit
    · rw [if_pos hc]
      simp only [List.length_append, List.length_singleton]
      omega
    · rw [if_neg hc]; exact h

theorem pushTriple_fold_distinct (limit : ℕ) (l : List KGTriple) :
    ∀ acc : List KGTriple, distinctTripleKeys acc →
      distinctTripleKeys (l.foldl (pushTriple limit) acc) := by
  induction l with
  | nil => intro acc h; simpa using h
  | cons t rest ih =>
    intro acc h
    simp only [List.foldl_cons]
    apply ih
    unfold pushTriple
    by_cases hc : ¬ (acc.any fun u => sameTripleKey u t) ∧ acc.length < limit
    · rw [if_pos hc]
      unfold distinctTripleKeys at h ⊢
      rw [List.pairwise_append]
      refine ⟨h, List.pairwise_singleton _ _, ?_⟩
      intro u hu t' ht'
      simp only [List.mem_singleton] at ht'
      subst ht'
      have hna := hc.1
      simp only [List.any_eq_true, not_exists, not_and] at hna
      by_contra hkey
      simp only [Bool.not_eq_false] at hkey
      exact absurd hkey (by simpa using hna u hu)
    · rw [if_neg hc]; exact h

/-- C4 (amended) — expansion bound and phase-2 deduplication: the expansion
never returns more than `limit` triples, for every store response, seed
list, depth and limit; and the result has pairwise-distinct triple keys
provided the capped direct-neighbor batch of phase 1 does (the code only
runs the dedup check when appending phase-2 triples — the phase-1 batch is
pushed unchecked). -/
theorem buildKnowledgeGraph_amended (getNeighbors : List String → List KGTriple)
    (bfsSearch : List String → ℕ → ℕ → List String)
    (entityIds : List String) (depth limit : ℕ) :
    (buildKnowledgeGraph getNeighbors bfsSearch entityIds depth limit).length ≤ limit
    ∧ (distinctTripleKeys ((getNeighbors entityIds).take limit) →
        distinctTripleKeys (buildKnowledgeGraph getNeighbors bfsSearch entityIds depth limit)) :=
  by
  have htake : ((getNeighbors entityIds).take limit).length ≤ limit :=
    List.length_take_le limit _
  constructor
  · unfold buildKnowledgeGraph
    by_cases h1 : depth > 1 ∧ entityIds ≠ []
    · simp only [if_pos h1]
      by_cases h2 : bfsSearch (entityIds.take 5) depth limit ≠ []
      · simp only [if_pos h2]
        exact pushTriple_fold_length limit _ _ htake
      · simp only [if_neg h2]; exact htake
    · simp only [if_neg h1]; exact htake
  · intro hdist
    unfold buildKnowledgeGraph
    by_cases h1 : depth > 1 ∧ entityIds ≠ []
    · simp only [if_pos h1]
      by_cases h2 : bfsSearch (entityIds.take 5) depth limit ≠ []
      · simp only [if_pos h2]
        exact pushTriple_fold_distinct limit _ _ hdist
      · simp only [if_neg h2]; exact hdist
    · simp only [if_neg h1]; exact hdist

/-- The duplicated direct-neighbor triple of the C4 counterexample: the
store's undirected neighbor query can return the same `(source id, target
id, type)` row twice (e.g. when edges `a-[R]->b` and `b-[R]->a` both
exist). -/
def cexTriple : KGTriple :=
  ⟨⟨"a", "A", "Person"⟩, "KNOWS", none, ⟨"b", "B", "Person"⟩⟩

/-- C4 counterexample — the "never includes duplicate triples" half of the
claim fails: with a direct-neighbor response containing the same triple key
twice, `expand(["a"], depth 2, limit 5)` returns both copies, because
phase 1 pushes the capped neighbor batch without any dedup check. -/
theorem buildKnowledgeGraph_dedup_counterexample :
    buildKnowledgeGraph (fun _ => [cexTriple, cexTriple]) (fun _ _ _ => [])
        ["a"] 2 5 = [cexTriple, cexTriple]
    ∧ ¬ distinctTripleKeys
        (buildKnowledgeGraph (fun _ => [cexTriple, cexTriple]) (fun _ _ _ => [])
          ["a"] 2 5) := by
  constructor
  · decide
  · intro h
    have : sameTripleKey cexTriple cexTriple = false := by
      have h2 : buildKnowledgeGraph (fun _ => [cexTriple, cexTriple])
          (fun _ _ _ => []) ["a"] 2 5 = [cexTriple, cexTriple] := by decide
      rw [h2] at h
      unfold distinctTripleKeys at h
      exact List.rel_of_pairwise_cons h (List.mem_singleton.mpr rfl)
    exact absurd this (by decide)

/-- Witness for the amended C4 theorem: distinct direct neighbors, `limit
= 5`, output within the bound and duplicate-free. -/
theorem buildKnowledgeGraph_amended_witness :
    (buildKnowledgeGraph (fun _ => [cexTriple]) (fun _ _ _ => ["b"]) ["a"] 2 5).length ≤ 5
    ∧ distinctTripleKeys
        (buildKnowledgeGraph (fun _ => [cexTriple]) (fun _ _ _ => ["b"]) ["a"] 2 5) := by
  have h := buildKnowledgeGraph_amended (fun _ => [cexTriple])
    (fun _ _ _ => ["b"]) ["a"] 2 5
  exact ⟨h.1, h.2 (by unfold distinctTripleKeys; decide)⟩

/-! ## Retrieval orchestrator (`HybridRetriever.retrieve`) -/

/-- The entity item carried into reranking (`EntitySearchResult`). -/
structure EntityItem where
  id : String
  name : String
  type : Option String
  description : Option String
  score : ℚ
deriving DecidableEq, Repr

/-- `IRetrievalOptions` — optional per-call settings; `none` selects the
defaults resolved at the top of `retrieve`. -/
structure RetrievalOptions where
  maxChunks : Option ℕ := none
  maxEntities : Option ℕ := none
  maxGraphTriples : Option ℕ := none
  chunkThreshold : Option ℚ := none
  searchMethods : Option (List SearchMethod) := none
  bfsDepth : Option ℕ := none
deriving Repr

/-- A chunk of `IRetrievalResult`. -/
structure RetrievalChunk where
  id : String
  content : String
  similarity : ℚ
  combinedScore : ℚ
deriving DecidableEq, Repr

/-- An entity of `IRetrievalResult`. -/
structure RetrievalEntity where
  id : String
  name : String
  type : Option String
  description : Option String
  score : ℚ
deriving DecidableEq, Repr

/-- `IRetrievalResult`. -/
structure RetrievalResult where
  chunks : List RetrievalChunk
  entities : List RetrievalEntity
  knowledgeGraph : List KGTriple
deriving DecidableEq, Repr

/-- `HybridRetriever.retrieve`: resolve option defaults, fan out the
multi-method searches with the overfetch limits the code computes
(`maxChunks * 3` and `maxEntities * 2`), rerank chunks and entities, take
the per-kind limits, and expand the knowledge graph when `graph` was
requested and at least one entity survived. The multi-method searches, the
selected reranker (one `IReranker.rerank` instantiation per item kind) and
the graph store are oracles; the constructor defaults `["bm25", "semantic",
"graph"]` stand in for `this.defaultSearchMethods`. The `rrfK` /
`crossEncoderThreshold` / `reranker` options only parameterize which
reranker oracle is passed in, so they are not repeated here. -/
def retrieve
    (searchChunksMultiMethod : List SearchMethod → ℕ → ℚ → List (SearchResult ChunkItem))
    (searchEntitiesMultiMethod : List SearchMethod → ℕ → List (SearchResult EntityItem))
    (rerankChunks : String → List (SearchResult ChunkItem) → List (RankedResult ChunkItem))
    (rerankEntities : String → List (SearchResult EntityItem) → List (RankedResult EntityItem))
    (getNeighbors : List String → List KGTriple)
    (bfsSearch : List String → ℕ → ℕ → List String)
    (query : String) (options : RetrievalOptions) : RetrievalResult :=
  let maxChunks := options.maxChunks.getD 10
  let maxEntities := options.maxEntities.getD 15
  let maxGraphTriples := options.maxGraphTriples.getD 20
  let chunkThreshold := options.chunkThreshold.getD (3/10)
  let searchMethods := options.searchMethods.getD [.bm25, .semantic, .graph]
  let bfsDepth := options.bfsDepth.getD 2
  let chunkResults := searchChunksMultiMethod searchMethods (maxChunks * 3) chunkThreshold
  let entityResults := searchEntitiesMultiMethod searchMethods (maxEntities * 2)
  let rankedChunks := rerankChunks query chunkResults
  let rankedEntities := rerankEntities query entityResults
  let topChunks := rankedChunks.take maxChunks
  let topEntities := rankedEntities.take maxEntities
  let knowledgeGraph :=
    if SearchMethod.graph ∈ searchMethods ∧ topEntities ≠ [] then
      buildKnowledgeGraph getNeighbors bfsSearch (topEntities.map (·.item.id))
        bfsDepth maxGraphTriples
    else []
  { chunks := topChunks.map fun r => ⟨r.item.id, r.item.content, r.score, r.score⟩
    entities := topEntities.map fun r =>
      ⟨r.item.id, r.item.name, r.item.type, r.item.description, r.score⟩
    knowledgeGraph := knowledgeGraph }

/-- C3 (amended) — overfetch factors and truncation: `retrieve` consults the
chunk search only at limit `3 × maxChunks` and the entity search only at
limit `2 × maxEntities` (any two search oracles agreeing there yield
identical results), and the returned lists are truncated to `maxChunks` /
`maxEntities`. The claim's `3 ×` factor is correct for chunks but the
entity overfetch factor in the code is `2 ×`. -/
theorem retrieve_overfetch_amended
    (sc sc' : List SearchMethod → ℕ → ℚ → List (SearchResult ChunkItem))
    (se se' : List SearchMethod → ℕ → List (SearchResult EntityItem))
    (rc : String → List (SearchResult ChunkItem) → List (RankedResult ChunkItem))
    (re : String → List (SearchResult EntityItem) → List (RankedResult EntityItem))
    (gn : List String → List KGTriple) (bfs : List String → ℕ → ℕ → List String)
    (q : String) (opts : RetrievalOptions)
    (hc : sc (opts.searchMethods.getD [.bm25, .semantic, .graph])
        ((opts.maxChunks.getD 10) * 3) (opts.chunkThreshold.getD (3/10)) =
      sc' (opts.searchMethods.getD [.bm25, .semantic, .graph])
        ((opts.maxChunks.getD 10) * 3) (opts.chunkThreshold.getD (3/10)))
    (he : se (opts.searchMethods.getD [.bm25, .semantic, .graph])
        ((opts.maxEntities.getD 15) * 2) =
      se' (opts.searchMethods.getD [.bm25, .semantic, .graph])
        ((opts.maxEntities.getD 15) * 2)) :
    retrieve sc se rc re gn bfs q opts = retrieve sc' se' rc re gn bfs q opts
    ∧ (retrieve sc se rc re gn bfs q opts).chunks.length ≤ opts.maxChunks.getD 10
    ∧ (retrieve sc se rc re gn bfs q opts).entities.length ≤ opts.maxEntities.getD 15 := by
  refine ⟨?eq, ?lc, ?le⟩
  case eq => simp only [retrieve]; rw [hc, he]
  case lc =>
    simp only [retrieve, List.length_map]
    exact List.length_take_le _ _
  case le =>
    simp only [retrieve, List.length_map]
    exact List.length_take_le _ _

/-- Options fixture for the C3 counterexample: only `bm25` search (so the
graph expansion stays empty); every limit at its default. -/
def overfetchCexOpts : RetrievalOptions := { searchMethods := some [.bm25] }

/-- Entity-search oracle that returns one entity only when asked for
exactly `30 = 2 × 15` candidates — the limit the code actually requests. -/
def overfetchCexSearch (_ : List SearchMethod) (limit : ℕ) :
    List (SearchResult EntityItem) :=
  if limit = 30 then [⟨⟨"e", "E", none, none, 1⟩, 1, .bm25⟩] else []

/-- C3 counterexample — the claim's "3 × the final entity limit" is false:
the two entity-search oracles agree wherever a `3 × maxEntities = 45`
request could reach them (they differ only at limit `30`), yet `retrieve`
returns different results under them, because the code requests
`maxEntities * 2 = 30` entity candidates, not `3 ×`. -/
theorem retrieve_overfetch_counterexample :
    (∀ ms : List SearchMethod, overfetchCexSearch ms 45 =
      (fun (_ : List SearchMethod) (_ : ℕ) => ([] : List (SearchResult EntityItem))) ms 45)
    ∧ retrieve (fun _ _ _ => []) overfetchCexSearch noopRerank noopRerank
        (fun _ => []) (fun _ _ _ => []) "q" overfetchCexOpts
      ≠ retrieve (fun _ _ _ => []) (fun _ _ => []) noopRerank noopRerank
        (fun _ => []) (fun _ _ _ => []) "q" overfetchCexOpts := by
  constructor
  · intro ms; simp [overfetchCexSearch]
  · intro h
    have h2 := congrArg RetrievalResult.entities h
    norm_num [retrieve, overfetchCexOpts, overfetchCexSearch, noopRerank,
      noopAdd, addSource, sortByDesc, insertByDesc] at h2

/-- Witness for the amended C3 theorem: two syntactically different chunk
oracles that agree at the requested `3 × maxChunks = 30` limit (and entity
oracles agreeing at `2 × maxEntities = 30`) produce identical retrievals. -/
theorem retrieve_overfetch_amended_witness :
    retrieve (fun _ n _ => if n = 30 then [⟨⟨"c", "t", 1⟩, 1, .bm25⟩] else [])
        (fun _ _ => []) noopRerank noopRerank (fun _ => []) (fun _ _ _ => [])
        "q" overfetchCexOpts
      = retrieve (fun _ _ _ => [⟨⟨"c", "t", 1⟩, 1, .bm25⟩])
        (fun _ _ => []) noopRerank noopRerank (fun _ => []) (fun _ _ _ => [])
        "q" overfetchCexOpts := by
  have h := retrieve_overfetch_amended
    (fun _ n _ => if n = 30 then [⟨⟨"c", "t", 1⟩, 1, .bm25⟩] else [])
    (fun _ _ _ => [⟨⟨"c", "t", 1⟩, 1, .bm25⟩])
    (fun _ _ => []) (fun _ _ => []) noopRerank noopRerank
    (fun _ => []) (fun _ _ _ => []) "q" overfetchCexOpts
    (by norm_num [overfetchCexOpts]) rfl
  exact h.1

/-! ## Identity resolver — `slugify` (`src/utils/text`)

Modelled from the spec: the implementation file `src/utils/text.ts` is not
among the provided sources — only its unit tests and its callers are. The
definition below follows §4.1 of the spec where the tests are silent
(lowercase first, trim leading/trailing hyphens last) and follows the
repository's own slugify unit tests where they speak: special characters
are *removed* (`hello@world!` becomes `helloworld`, not `hello-world`),
underscores are *preserved* (`hello_world` maps to itself), diacritic
letters are stripped entirely (`Café Müller` becomes `caf-mller`), and
only runs of whitespace/hyphens collapse to a single
hyphen. `slugify_matches_repository_tests` below checks the model against
every test vector. -/

/-- Characters surviving the removal pass: ASCII lowercase letters (the
input was lowercased first), digits, underscore, space and hyphen. -/
def isSlugKeep (c : Char) : Bool :=
  c.isLower || c.isDigit || c = '_' || c = '-' || c = ' '

/-- Separator characters: runs of these collapse to a single hyphen. -/
def isSep (c : Char) : Bool := c = ' ' || c = '-'

/-- Collapse every run of characters satisfying `sep` into a single `'-'`;
the `Bool` records whether the previous character belonged to a run. -/
def collapseRuns (sep : Char → Bool) : Bool → List Char → List Char
  | _, [] => []
  | prev, c :: rest =>
    if sep c then
      if prev then collapseRuns sep true rest
      else '-' :: collapseRuns sep true rest
    else c :: collapseRuns sep false rest

/-- Drop leading and trailing hyphens (trailing first, then leading). -/
def trimHyphens (l : List Char) : List Char :=
  ((l.reverse.dropWhile (· = '-')).reverse).dropWhile (· = '-')

/-- `slugify(name) -> id`: lowercase, remove special characters (keeping
underscores), collapse whitespace/hyphen runs to single hyphens, trim
boundary hyphens. -/
def slugify (s : String) : String :=
  ⟨trimHyphens (collapseRuns isSep false ((s.data.map Char.toLower).filter isSlugKeep))⟩

/-- The slug normalization rule exactly as the claim words it: lowercase,
then replace every run of non-alphanumeric characters with a single hyphen,
then trim leading and trailing hyphens. -/
def claimSlugify (s : String) : String :=
  ⟨trimHyphens (collapseRuns (fun c => !(c.isLower || c.isDigit)) false
    (s.data.map Char.toLower))⟩

theorem head?_dropWhile {α : Type} (p : α → Bool) (l : List α) (c : α)
    (h : (l.dropWhile p).head? = some c) : p c = false := by
  induction l with
  | nil => simp [List.dropWhile] at h
  | cons d rest ih =>
    by_cases hd : p d
    · rw [List.dropWhile_cons_of_pos hd] at h
      exact ih h
    · rw [List.dropWhile_cons_of_neg hd] at h
      simp only [List.head?_cons, Option.some_inj] at h
      subst h
      simpa using hd

theorem mem_collapseRuns (sep : Char → Bool) (l : List Char) :
    ∀ (b : Bool) (c : Char), c ∈ collapseRuns sep b l →
      c = '-' ∨ (c ∈ l ∧ sep c = false) := by
  induction l with
  | nil => intro b c h; simp [collapseRuns] at h
  | cons d rest ih =>
    intro b c h
    by_cases hd : sep d
    · by_cases hb : b
      · subst hb
        simp only [collapseRuns, if_pos hd, if_pos rfl] at h
        rcases ih true c h with h2 | h2
        · exact Or.inl h2
        · exact Or.inr ⟨List.mem_cons_of_mem d h2.1, h2.2⟩
      · simp only [Bool.not_eq_true] at hb
        subst hb
        simp only [collapseRuns, if_pos hd] at h
        rcases List.mem_cons.mp h with rfl | h2
        · exact Or.inl rfl
        · rcases ih true c h2 with h3 | h3
          · exact Or.inl h3
          · exact Or.inr ⟨List.mem_cons_of_mem d h3.1, h3.2⟩
    · simp only [collapseRuns, if_neg hd] at h
      rcases List.mem_cons.mp h with rfl | h2
      · exact Or.inr ⟨List.mem_cons_self _ _, by simpa using hd⟩
      · rcases ih false c h2 with h3 | h3
        · exact Or.inl h3
        · exact Or.inr ⟨List.mem_cons_of_mem d h3.1, h3.2⟩

theorem head?_collapseRuns_true (sep : Char → Bool) (l : List Char) (c : Char)
    (h : (collapseRuns sep true l).head? = some c) : sep c = false := by
  induction l with
  | nil => simp [collapseRuns] at h
  | cons d rest ih =>
    by_cases hd : sep d
    · simp only [collapseRuns, if_pos hd, if_pos rfl] at h
      exact ih h
    · simp only [collapseRuns, if_neg hd, List.head?_cons, Option.some_inj] at h
      subst h
      simpa using hd

/-- No two adjacent hyphens come out of the run-collapsing pass, provided
the hyphen itself counts as a separator. -/
theorem chain'_collapseRuns (sep : Char → Bool) (hsep : sep '-' = true)
    (l : List Char) :
    ∀ b : Bool, List.Chain' (fun a c => ¬(a = '-' ∧ c = '-')) (collapseRuns sep b l) := by
  induction l with
  | nil => intro b; simp [collapseRuns]
  | cons d rest ih =>
    intro b
    by_cases hd : sep d
    · by_cases hb : b
      · subst hb
        simpa only [collapseRuns, if_pos hd, if_pos rfl] using ih true
      · simp only [Bool.not_eq_true] at hb
        subst hb
        have hstep : collapseRuns sep false (d :: rest) =
            '-' :: collapseRuns sep true rest := by
          simp [collapseRuns, hd]
        rw [hstep, List.chain'_cons']
        refine ⟨?head, ih true⟩
        intro y hy hcontra
        have := head?_collapseRuns_true sep rest y hy
        rw [hcontra.2] at this
        rw [hsep] at this
        cases this
    · simp only [collapseRuns, if_neg hd]
      rw [List.chain'_cons']
      refine ⟨?head2, ih false⟩
      intro y hy hcontra
      rw [hcontra.1] at hd
      exact hd hsep

theorem chain'_dropWhile {α : Type} (R : α → α → Prop) (p : α → Bool)
    (l : List α) (h : List.Chain' R l) : List.Chain' R (l.dropWhile p) := by
  induction l with
  | nil => simpa using h
  | cons d rest ih =>
    by_cases hd : p d
    · rw [List.dropWhile_cons_of_pos hd]
      exact ih h.tail
    · rwa [List.dropWhile_cons_of_neg hd]

theorem mem_trimHyphens (l : List Char) (c : Char) (h : c ∈ trimHyphens l) :
    c ∈ l := by
  unfold trimHyphens at h
  have h1 := (List.dropWhile_suffix (fun x => x = '-')).sublist.mem h
  rw [List.mem_reverse] at h1
  have h2 := (List.dropWhile_suffix (fun x => x = '-')).sublist.mem h1
  rwa [List.mem_reverse] at h2

theorem head?_trimHyphens (l : List Char) (c : Char)
    (h : (trimHyphens l).head? = some c) : c ≠ '-' := by
  unfold trimHyphens at h
  have := head?_dropWhile (fun x => x = '-') _ c h
  simpa using this

theorem getLast?_trimHyphens (l : List Char) (c : Char)
    (h : (trimHyphens l).getLast? = some c) : c ≠ '-' := by
  unfold trimHyphens at h
  set w := (l.reverse.dropWhile (· = '-')).reverse with hw
  have hsuf : w.dropWhile (· = '-') <:+ w := List.dropWhile_suffix _
  obtain ⟨t, ht⟩ := hsuf
  have hne : w.dropWhile (· = '-') ≠ [] := by
    intro hnil
    rw [hnil] at h
    simp at h
  have hlast : w.getLast? = some c := by
    rw [← ht, List.getLast?_append_of_ne_nil t hne]
    exact h
  rw [hw, List.getLast?_reverse] at hlast
  have := head?_dropWhile (fun x => x = '-') _ c hlast
  simpa using this

theorem chain'_trimHyphens (R : Char → Char → Prop)
    (l : List Char) (h : List.Chain' R l) :
    List.Chain' R (trimHyphens l) := by
  unfold trimHyphens
  apply chain'_dropWhile
  rw [List.chain'_reverse]
  apply chain'_dropWhile
  rw [List.chain'_reverse]
  exact List.Chain'.imp (fun a b hab => hab) h

/-- C9 (amended) — `slugify` is a deterministic, pure, total function that
lowercases its input, strips diacritic (non-ASCII) letters entirely,
*removes* other special characters (keeping underscores) rather than
hyphenating them, replaces every run of whitespace/hyphens with a single
hyphen, and trims leading and trailing hyphens. Part 1 checks the model
against the repository's slugify unit-test vectors; parts 2–4 prove, for
every input: every output character is a lowercase ASCII letter, digit,
underscore or hyphen; no two hyphens are adjacent; and the output neither
starts nor ends with a hyphen. -/
theorem slugify_normalization_amended :
    (slugify "HELLO WORLD" = "hello-world" ∧ slugify "hello world" = "hello-world"
      ∧ slugify "hello@world!" = "helloworld" ∧ slugify "hello   world" = "hello-world"
      ∧ slugify "  hello  " = "hello" ∧ slugify "" = "" ∧ slugify "Café Müller" = "caf-mller"
      ∧ slugify "hello---world" = "hello-world" ∧ slugify "hello--world" = "hello-world"
      ∧ slugify "test123" = "test123" ∧ slugify "hello_world" = "hello_world"
      ∧ slugify "Hello World Test" = "hello-world-test" ∧ slugify "Elon Musk" = "elon-musk"
      ∧ slugify "OpenAI Inc." = "openai-inc" ∧ slugify "New York City" = "new-york-city")
    ∧ (∀ (s : String), ∀ c ∈ (slugify s).data,
        c.isLower = true ∨ c.isDigit = true ∨ c = '_' ∨ c = '-')
    ∧ (∀ s : String, List.Chain' (fun a b => ¬(a = '-' ∧ b = '-')) (slugify s).data)
    ∧ (∀ (s : String) (c : Char), ((slugify s).data.head? = some c → c ≠ '-')
        ∧ ((slugify s).data.getLast? = some c → c ≠ '-')) := by
  refine ⟨⟨?_, ?_, ?_, ?_, ?_, ?_, ?_, ?_, ?_, ?_, ?_, ?_, ?_, ?_, ?_⟩, ?chars, ?chain, ?bounds⟩
  · decide
  · decide
  · decide
  · decide
  · decide
  · decide
  · decide
  · decide
  · decide
  · decide
  · decide
  · decide
  · decide
  · decide
  · decide
  case chars =>
    intro s c hc
    have hmem : c ∈ collapseRuns isSep false
        ((s.data.map Char.toLower).filter isSlugKeep) := mem_trimHyphens _ c hc
    rcases mem_collapseRuns isSep _ false c hmem with rfl | ⟨hin, hns⟩
    · exact Or.inr (Or.inr (Or.inr rfl))
    · have hkeep : isSlugKeep c = true := List.of_mem_filter hin
      simp only [isSlugKeep, Bool.or_eq_true, decide_eq_true_eq] at hkeep
      have hns1 : ¬ (c = '-') := by
        intro hEq; rw [hEq] at hns; simp [isSep] at hns
      have hns2 : ¬ (c = ' ') := by
        intro hEq; rw [hEq] at hns; simp [isSep] at hns
      rcases hkeep with ((((h | h) | h) | h) | h)
      · exact Or.inl h
      · exact Or.inr (Or.inl h)
      · exact Or.inr (Or.inr (Or.inl h))
      · exact absurd h hns1
      · exact absurd h hns2
  case chain =>
    intro s
    exact chain'_trimHyphens _ _
      (chain'_collapseRuns isSep (by decide) _ false)
  case bounds =>
    intro s c
    exact ⟨head?_trimHyphens _ c, getLast?_trimHyphens _ c⟩

/-- C9 counterexample — the claim's normalization rule ("replace every run
of non-alphanumeric characters with a single hyphen") disagrees with the
code: on `"hello@world!"` the rule yields `"hello-world"`, while the
repository's own slugify unit tests pin `"helloworld"` (special characters
are removed); on `"hello_world"` the rule yields `"hello-world"` while the
tests pin `"hello_world"` (underscores are preserved). -/
theorem slugify_claim_counterexample :
    claimSlugify "hello@world!" = "hello-world"
    ∧ slugify "hello@world!" = "helloworld"
    ∧ claimSlugify "hello@world!" ≠ slugify "hello@world!"
    ∧ claimSlugify "hello_world" = "hello-world"
    ∧ slugify "hello_world" = "hello_world" := by
  refine ⟨by decide, by decide, by decide, by decide, by decide⟩

/-- Witness for the amended C9 theorem at concrete inputs: the character
`'_'` of `slugify "a_b"` satisfies the output charset, and the head
character of `slugify "-hello-"` (namely `'h'`) is not a hyphen. -/
theorem slugify_normalization_amended_witness :
    ('_'.isLower = true ∨ '_'.isDigit = true ∨ '_' = '_' ∨ '_' = '-')
    ∧ ('h' : Char) ≠ '-' := by
  refine ⟨slugify_normalization_amended.2.1 "a_b" '_' (by decide), ?_⟩
  exact (slugify_normalization_amended.2.2.2 "-hello-" 'h').1 (by decide)

/-! ## Ingestion pipeline (`src/modules/ingestion/pipeline.ts`) -/

/-- JS `String.prototype.toLowerCase` (the ASCII fragment the repository
exercises). -/
def toLowerStr (s : String) : String := ⟨s.data.map Char.toLower⟩

/-- JS `a.includes(b)`: `b` occurs as a contiguous substring of `a`. -/
def strIncludes (a b : String) : Bool := decide (List.IsInfix b.data a.data)

/-- The containment test of the fuzzy-match substring step:
`key.includes(lowered) || lowered.includes(key)`. -/
def containsEither (a b : String) : Bool := strIncludes a b || strIncludes b a

/-- An entity extracted from one chunk (an `ExtractionResultSchema` entity;
the optional description is already defaulted to `""` by the pipeline). -/
structure ExtractedEntity where
  name : String
  type : String
  description : String
deriving DecidableEq, Repr

/-- A relationship extracted from one chunk. -/
structure ExtractedRel where
  source : String
  target : String
  relation : String
  fact : String
deriving DecidableEq, Repr

/-- One chunk's extraction output. -/
structure ExtractionResult where
  entities : List ExtractedEntity
  relationships : List ExtractedRel
deriving DecidableEq, Repr

/-- The canonical entity record accumulated per slug id. -/
structure EntityRec where
  name : String
  type : String
  description : String
deriving DecidableEq, Repr

/-- The `entities` map of `extractFromChunks` / `storeInNeo4j`
(insertion-ordered, keyed by slug id). -/
abbrev EntityMap := List (String × EntityRec)

/-- `entities.get(id)`. -/
def lookupEntity (m : EntityMap) (id : String) : Option EntityRec :=
  (m.find? (fun p => p.1 == id)).map (·.2)

/-- `entities.has(id)`. -/
def hasEntity (m : EntityMap) (id : String) : Bool :=
  m.any (fun p => p.1 == id)

/-- The entity-merge step of `extractFromChunks`: key by `slugify(name)`;
on a repeat, append the new description (space-separated) only when nonempty
and not already a substring of the accumulated description; otherwise
insert the record. -/
def mergeEntity (m : EntityMap) (e : ExtractedEntity) : EntityMap :=
  let id := slugify e.name
  match lookupEntity m id with
  | some existing =>
    if e.description ≠ "" ∧ strIncludes existing.description e.description = false then
      m.map fun p =>
        if p.1 == id then
          (p.1, ⟨existing.name, existing.type,
            existing.description ++ " " ++ e.description⟩)
        else p
    else m
  | none => m ++ [(id, ⟨e.name, e.type, e.description⟩)]

/-- A relationship awaiting canonical-endpoint resolution; the pipeline has
already slugified the raw extracted endpoint names. -/
structure PendingRel where
  sourceId : String
  targetId : String
  type : String
  fact : String
deriving DecidableEq, Repr

/-- `extractFromChunks`: fold all per-chunk extraction results in order,
merging entities into the slug-keyed map and collecting relationships with
slugified endpoints. The code processes chunks in batches of
`parallelExtractions`, but batch results are consumed in chunk order, so
the accumulation equals this plain in-order fold. -/
def extractFromChunks (extractions : List ExtractionResult) :
    EntityMap × List PendingRel :=
  extractions.foldl
    (fun (acc : EntityMap × List PendingRel) ex =>
      (ex.entities.foldl mergeEntity acc.1,
        acc.2 ++ ex.relationships.map
          (fun r => ⟨slugify r.source, slugify r.target, r.relation, r.fact⟩)))
    ([], [])

/-- JS `Map.prototype.set` on the association-list model: overwrite the
existing entry in place, else append. -/
def mapSet (m : List (String × String)) (k v : String) : List (String × String) :=
  if m.any (fun p => p.1 == k) then
    m.map (fun p => if p.1 == k then (k, v) else p)
  else m ++ [(k, v)]

/-- JS `Map.prototype.get`. -/
def mapGet (m : List (String × String)) (k : String) : Option String :=
  (m.find? (fun p => p.1 == k)).map (·.2)

/-- The `nameToId` map of `storeInNeo4j`: for each accumulated entity, in
insertion order, `name.toLowerCase() -> id` then `id -> id`. -/
def buildNameToId (entities : EntityMap) : List (String × String) :=
  entities.foldl
    (fun m p => mapSet (mapSet m (toLowerStr p.2.name) p.1) p.1 p.1) []

/-- `findEntityId` of `storeInNeo4j` (pipeline.ts lines 225–238): (a) exact
slug lookup in the accumulated entity map; (b) lookup of the lowercased
string among the `nameToId` keys (which are lowercased names *and* ids);
(c) the first `nameToId` entry, in insertion order, whose key contains the
lowercased string or vice versa. -/
def findEntityId (entities : EntityMap) (name : String) : Option String :=
  let directId := slugify name
  if hasEntity entities directId then some directId
  else
    let lowered := toLowerStr name
    match mapGet (buildNameToId entities) lowered with
    | some id => some id
    | none =>
      (buildNameToId entities).findSome? fun q =>
        if containsEither q.1 lowered then some q.2 else none

/-- The resolution cascade exactly as the claim words it: (a) exact slug
match; (b) case-insensitive exact *name* match; (c) substring containment
against candidate *names* only, first match in insertion order. -/
def claimFindEntityId (entities : EntityMap) (name : String) : Option String :=
  let directId := slugify name
  if hasEntity entities directId then some directId
  else
    let lowered := toLowerStr name
    match entities.find? (fun p => toLowerStr p.2.name == lowered) with
    | some p => some p.1
    | none =>
      entities.findSome? fun p =>
        if containsEither (toLowerStr p.2.name) lowered then some p.1 else none

/-- The amended cascade: (a) exact slug match; (b) case-insensitive exact
name match *or exact id match*, first matching entity in insertion order;
(c) substring containment against the candidate's lowercased name *or its
id* (name checked before id), first match in insertion order. -/
def amendedFindEntityId (entities : EntityMap) (name : String) : Option String :=
  let directId := slugify name
  if hasEntity entities directId then some directId
  else
    let lowered := toLowerStr name
    match entities.find? (fun p => toLowerStr p.2.name == lowered || p.1 == lowered) with
    | some p => some p.1
    | none =>
      entities.findSome? fun p =>
        if containsEither (toLowerStr p.2.name) lowered then some p.1
        else if containsEither p.1 lowered then some p.1 else none

/-- The `nameToId` keys contributed by one entity (a single key when the
lowercased name coincides with the id). -/
def entityKeys (p : String × EntityRec) : List String :=
  if toLowerStr p.2.name = p.1 then [p.1] else [toLowerStr p.2.name, p.1]

/-- The `nameToId` entries contributed by one entity. -/
def entityKeyPairs (p : String × EntityRec) : List (String × String) :=
  if toLowerStr p.2.name = p.1 then [(p.1, p.1)]
  else [(toLowerStr p.2.name, p.1), (p.1, p.1)]

/-- All `nameToId` keys, in insertion order. -/
def allKeys (entities : EntityMap) : List String :=
  (entities.map entityKeys).flatten

theorem mapSet_not_mem (m : List (String × String)) (k v : String)
    (h : ∀ p ∈ m, p.1 ≠ k) : mapSet m k v = m ++ [(k, v)] := by
  unfold mapSet
  rw [if_neg]
  simp only [List.any_eq_true, beq_iff_eq, not_exists, not_and]
  exact h

theorem map_noop_of_key_ne (m : List (String × String)) (k v : String)
    (h : ∀ p ∈ m, p.1 ≠ k) :
    m.map (fun p => if p.1 == k then (k, v) else p) = m := by
  induction m with
  | nil => rfl
  | cons q rest ih =>
    simp only [List.map_cons]
    rw [if_neg (by simpa using h q (List.mem_cons_self q rest))]
    rw [ih (fun p hp => h p (List.mem_cons_of_mem q hp))]

theorem mapSet_append_self (m : List (String × String)) (k v v' : String)
    (h : ∀ p ∈ m, p.1 ≠ k) : mapSet (m ++ [(k, v)]) k v' = m ++ [(k, v')] := by
  unfold mapSet
  rw [if_pos (by simp)]
  rw [List.map_append, map_noop_of_key_ne m k v' h]
  simp

theorem keys_entityKeyPairs (p : String × EntityRec) :
    (entityKeyPairs p).map Prod.fst = entityKeys p := by
  unfold entityKeyPairs entityKeys
  by_cases h : toLowerStr p.2.name = p.1 <;> simp [h]

theorem findSome?_append_or {α β : Type} (f : α → Option β) (l1 l2 : List α) :
    (l1 ++ l2).findSome? f = ((l1.findSome? f).or (l2.findSome? f)) := by
  induction l1 with
  | nil => simp
  | cons a as ih =>
    cases h : f a <;> simp [List.findSome?_cons, h, ih]

theorem buildNameToId_fold (entities : EntityMap) :
    ∀ acc : List (String × String),
      (∀ k ∈ acc.map Prod.fst, k ∉ allKeys entities) →
      (allKeys entities).Nodup →
      entities.foldl
        (fun m p => mapSet (mapSet m (toLowerStr p.2.name) p.1) p.1 p.1) acc
        = acc ++ (entities.map entityKeyPairs).flatten := by
  induction entities with
  | nil => intro acc _ _; simp
  | cons p rest ih =>
    intro acc hfresh hnd
    have hsplit : allKeys (p :: rest) = entityKeys p ++ allKeys rest := by
      simp [allKeys]
    rw [hsplit] at hfresh hnd
    rw [List.nodup_append] at hnd
    obtain ⟨hndp, hndrest, hdisj⟩ := hnd
    have hlowfresh : ∀ q ∈ acc, q.1 ≠ toLowerStr p.2.name := by
      intro q hq hEq
      refine hfresh q.1 (List.mem_map_of_mem Prod.fst hq) ?_
      rw [hEq]
      apply List.mem_append_left
      unfold entityKeys
      by_cases hc : toLowerStr p.2.name = p.1 <;> simp [hc]
    have hidfresh : ∀ q ∈ acc, q.1 ≠ p.1 := by
      intro q hq hEq
      refine hfresh q.1 (List.mem_map_of_mem Prod.fst hq) ?_
      rw [hEq]
      apply List.mem_append_left
      unfold entityKeys
      by_cases hc : toLowerStr p.2.name = p.1 <;> simp [hc]
    have hstep : mapSet (mapSet acc (toLowerStr p.2.name) p.1) p.1 p.1
        = acc ++ entityKeyPairs p := by
      rw [mapSet_not_mem acc _ _ hlowfresh]
      by_cases hc : toLowerStr p.2.name = p.1
      · rw [hc, mapSet_append_self acc _ _ _ hidfresh]
        unfold entityKeyPairs
        rw [if_pos hc]
      · rw [mapSet_not_mem]
        · unfold entityKeyPairs
          rw [if_neg hc, List.append_assoc]
          rfl
        · intro q hq
          rcases List.mem_append.mp hq with h2 | h2
          · exact hidfresh q h2
          · simp only [List.mem_singleton] at h2
            rw [h2]
            exact fun hEq => hc hEq
    simp only [List.foldl_cons, hstep]
    rw [ih (acc ++ entityKeyPairs p) ?fresh hndrest]
    · simp
    case fresh =>
      intro k hk
      rw [List.map_append, List.mem_append] at hk
      rcases hk with h2 | h2
      · exact fun hmem => hfresh k h2 (List.mem_append_right _ hmem)
      · rw [keys_entityKeyPairs] at h2
        exact fun hmem => hdisj h2 hmem

/-- Under cross-entity key-distinctness, the `nameToId` map is exactly the
in-order concatenation of each entity's key pairs. -/
theorem buildNameToId_eq (entities : EntityMap)
    (hnd : (allKeys entities).Nodup) :
    buildNameToId entities = (entities.map entityKeyPairs).flatten := by
  unfold buildNameToId
  have h := buildNameToId_fold entities [] (by simp) hnd
  simpa using h

theorem mapGet_append (m1 m2 : List (String × String)) (x : String) :
    mapGet (m1 ++ m2) x = (mapGet m1 x).or (mapGet m2 x) := by
  unfold mapGet
  rw [List.find?_append]
  cases List.find? (fun p => p.1 == x) m1 <;> simp

theorem mapGet_block (p : String × EntityRec) (x : String) :
    mapGet (entityKeyPairs p) x =
      if (toLowerStr p.2.name == x || p.1 == x) = true then some p.1 else none := by
  unfold mapGet entityKeyPairs
  by_cases hc : toLowerStr p.2.name = p.1
  · by_cases hx : p.1 = x <;> simp [hc, hx, List.find?_cons]
  · by_cases hlow : toLowerStr p.2.name = x
    · rw [if_neg hc, List.find?_cons_of_pos _ (by simp [hlow])]
      simp [hlow]
    · by_cases hx : p.1 = x <;> simp [hc, hlow, hx, List.find?_cons]

theorem mapGet_keyPairs (entities : EntityMap) (x : String) :
    mapGet ((entities.map entityKeyPairs).flatten) x
      = (entities.find? (fun p => toLowerStr p.2.name == x || p.1 == x)).map (·.1) := by
  induction entities with
  | nil => simp [mapGet]
  | cons p rest ih =>
    simp only [List.map_cons, List.flatten_cons]
    rw [mapGet_append, mapGet_block]
    cases hmatch : (toLowerStr p.2.name == x || p.1 == x) with
    | true => simp [List.find?_cons, hmatch]
    | false => simp [List.find?_cons, hmatch, ih]

theorem findSome?_keyPairs (entities : EntityMap) (x : String) :
    ((entities.map entityKeyPairs).flatten).findSome?
        (fun q => if containsEither q.1 x then some q.2 else none)
      = entities.findSome? (fun p =>
          if containsEither (toLowerStr p.2.name) x then some p.1
          else if containsEither p.1 x then some p.1 else none) := by
  induction entities with
  | nil => simp
  | cons p rest ih =>
    simp only [List.map_cons, List.flatten_cons]
    rw [findSome?_append_or, List.findSome?_cons]
    by_cases hc : toLowerStr p.2.name = p.1
    · simp only [entityKeyPairs, if_pos hc, hc]
      by_cases ht : containsEither p.1 x = true
      · simp [List.findSome?_cons, ht]
      · simp only [Bool.not_eq_true] at ht
        simp [List.findSome?_cons, ht, ih]
    · simp only [entityKeyPairs, if_neg hc]
      by_cases ht : containsEither (toLowerStr p.2.name) x = true
      · simp [List.findSome?_cons, ht]
      · simp only [Bool.not_eq_true] at ht
        by_cases ht2 : containsEither p.1 x = true
        · simp [List.findSome?_cons, ht, ht2]
        · simp only [Bool.not_eq_true] at ht2
          simp [List.findSome?_cons, ht, ht2, ih]

/-- C6 (amended) — the ingestion-time fuzzy endpoint resolution is the
cascade (a) exact slug match against the batch's entity set; (b)
case-insensitive exact name match (which, through the `nameToId` map, also
matches an entity's id exactly); (c) substring containment where the
candidate's lowercased *name or id* may contain the lookup string or vice
versa, first match in insertion order (each candidate's name checked before
its id); no resolution, no relationship. Stated as an equivalence between
the code's `findEntityId` and the declarative cascade, under the
cross-entity key-distinctness that the pipeline guarantees (ids are slugs
of names). -/
theorem findEntityId_amended_cascade (entities : EntityMap) (name : String)
    (hnd : (allKeys entities).Nodup) :
    findEntityId entities name = amendedFindEntityId entities name := by
  unfold findEntityId amendedFindEntityId
  by_cases h : hasEntity entities (slugify name) = true
  · simp [h]
  · simp only [Bool.not_eq_true] at h
    simp only [h, Bool.false_eq_true, if_false]
    rw [buildNameToId_eq entities hnd, mapGet_keyPairs, findSome?_keyPairs]
    cases hfind : entities.find?
        (fun p => toLowerStr p.2.name == toLowerStr name || p.1 == toLowerStr name) <;>
      simp [hfind]

/-- The accumulated entity batch of the C6 counterexample: one entity
`Alpha Beta` with slug id `alpha-beta`. -/
def fuzzyCexEntities : EntityMap :=
  [("alpha-beta", ⟨"Alpha Beta", "Person", ""⟩)]

/-- C6 counterexample — the claim's step (c) matches candidate *names*
only, but the code's substring scan runs over the `nameToId` map, whose
keys include candidate *ids*: looking up `"a-b"` (the slug the pipeline
produces for an extracted endpoint `"A B"`) resolves to `alpha-beta` via
the id key `"alpha-beta"` (which contains `"a-b"`), even though neither
the lowercased name `"alpha beta"` contains `"a-b"` nor vice versa — so
the code creates a relationship where the claim's cascade would not. -/
theorem fuzzy_resolution_counterexample :
    findEntityId fuzzyCexEntities "a-b" = some "alpha-beta"
    ∧ claimFindEntityId fuzzyCexEntities "a-b" = none
    ∧ slugify "A B" = "a-b" := by
  refine ⟨by decide, by decide, by decide⟩

/-- Witness for the amended C6 theorem: on the counterexample batch (whose
`nameToId` keys are pairwise distinct) the code's resolver and the amended
cascade agree. -/
theorem findEntityId_amended_cascade_witness :
    findEntityId fuzzyCexEntities "a-b" = amendedFindEntityId fuzzyCexEntities "a-b" :=
  findEntityId_amended_cascade fuzzyCexEntities "a-b" (by decide)

/-! ## Graph store writes (`storeInNeo4j`, upserts as idempotent writes) -/

/-- A persisted entity node. -/
structure EntityNode where
  id : String
  name : String
  type : String
  description : String
deriving DecidableEq, Repr

/-- A persisted relationship edge. -/
structure RelEdge where
  id : String
  sourceId : String
  targetId : String
  type : String
  fact : String
deriving DecidableEq, Repr

/-- The graph store's state. -/
structure GraphState where
  entities : List EntityNode
  relationships : List RelEdge
deriving DecidableEq, Repr

/-- `Neo4jDriver.upsertEntity` (a `MERGE` keyed by id): replace the
matching node or append. -/
def upsertEntity (g : GraphState) (e : EntityNode) : GraphState :=
  if g.entities.any (fun x => x.id == e.id) then
    { g with entities := g.entities.map (fun x => if x.id == e.id then e else x) }
  else { g with entities := g.entities ++ [e] }

/-- `Neo4jDriver.upsertRelationship` (a `MERGE (source)-[r:TYPE]->(target)`,
keyed by source id, type and target id): replace or append. The
`source_chunk_ids` provenance accretion is elided. -/
def upsertRelationship (g : GraphState) (r : RelEdge) : GraphState :=
  let sameKey : RelEdge → Bool := fun x =>
    x.sourceId == r.sourceId && x.type == r.type && x.targetId == r.targetId
  if g.relationships.any sameKey then
    ⟨g.entities, g.relationships.map (fun x => if sameKey x then r else x)⟩
  else ⟨g.entities, g.relationships ++ [r]⟩

/-- `findEntityId(rel.sourceId) || rel.sourceId`. -/
def resolveEndpoint (entities : EntityMap) (s : String) : String :=
  (findEntityId entities s).getD s

/-- Whether a pending relationship's endpoints both land on accumulated
entities after fuzzy resolution (`entities.has(sourceId) &&
entities.has(targetId)`). -/
def relResolves (entities : EntityMap) (r : PendingRel) : Bool :=
  hasEntity entities (resolveEndpoint entities r.sourceId)
    && hasEntity entities (resolveEndpoint entities r.targetId)

/-- The edge written for a resolved relationship
(`id = sourceId-type-targetId`). -/
def mkRelEdge (entities : EntityMap) (r : PendingRel) : RelEdge :=
  let s := resolveEndpoint entities r.sourceId
  let t := resolveEndpoint entities r.targetId
  ⟨s ++ "-" ++ r.type ++ "-" ++ t, s, t, r.type, r.fact⟩

/-- A relationship is successfully created when it resolves and the store
write does not throw (the `throws` oracle names the failing writes, which
the code catches). -/
def relSucceeds (entities : EntityMap) (throws : RelEdge → Bool)
    (r : PendingRel) : Bool :=
  relResolves entities r && !(throws (mkRelEdge entities r))

/-- The entity-upsert pass at the top of `storeInNeo4j`. -/
def upsertAllEntities (g : GraphState) (entities : EntityMap) : GraphState :=
  entities.foldl
    (fun g p => upsertEntity g ⟨p.1, p.2.name, p.2.type, p.2.description⟩) g

/-- One step of the relationship loop of `storeInNeo4j`: resolve the
endpoints; unresolved or throwing writes increment `relationsFailed` and
are skipped, successful writes upsert the edge and increment
`relationsCreated`. -/
def storeStep (entities : EntityMap) (throws : RelEdge → Bool)
    (acc : GraphState × ℕ × ℕ) (r : PendingRel) : GraphState × ℕ × ℕ :=
  if relResolves entities r then
    if throws (mkRelEdge entities r) then (acc.1, acc.2.1, acc.2.2 + 1)
    else (upsertRelationship acc.1 (mkRelEdge entities r), acc.2.1 + 1, acc.2.2)
  else (acc.1, acc.2.1, acc.2.2 + 1)

/-- `IngestionPipeline.storeInNeo4j`: upsert every accumulated entity, then
walk the relationship list in order with `relationsCreated` /
`relationsFailed` counters (the `try/catch` swallows store-write failures).
The function is total: ingestion never throws here. Returns
`(graph, relationsCreated, relationsFailed)`. -/
def storeInNeo4j (g : GraphState) (throws : RelEdge → Bool)
    (entities : EntityMap) (relations : List PendingRel) :
    GraphState × ℕ × ℕ :=
  relations.foldl (storeStep entities throws) (upsertAllEntities g entities, 0, 0)

theorem storeStep_created (entities : EntityMap) (throws : RelEdge → Bool)
    (relations : List PendingRel) :
    ∀ (g0 : GraphState) (c f : ℕ),
      (relations.foldl (storeStep entities throws) (g0, c, f)).2.1
        = c + relations.countP (relSucceeds entities throws) := by
  induction relations with
  | nil => intro g0 c f; simp
  | cons r rest ih =>
    intro g0 c f
    simp only [List.foldl_cons, List.countP_cons]
    by_cases hres : relResolves entities r = true
    · by_cases hthrow : throws (mkRelEdge entities r) = true
      · have hsucc : relSucceeds entities throws r = false := by
          simp [relSucceeds, hres, hthrow]
        simp only [storeStep, if_pos hres, if_pos hthrow, hsucc]
        rw [ih]
        simp <;> omega
      · have hsucc : relSucceeds entities throws r = true := by
          simp [relSucceeds, hres, hthrow]
        simp only [storeStep, if_pos hres, if_neg hthrow, hsucc]
        rw [ih]
        simp <;> omega
    · have hsucc : relSucceeds entities throws r = false := by
        simp [relSucceeds, hres]
      simp only [storeStep, if_neg hres, hsucc]
      rw [ih]
      simp <;> omega

theorem storeStep_total (entities : EntityMap) (throws : RelEdge → Bool)
    (relations : List PendingRel) :
    ∀ (g0 : GraphState) (c f : ℕ),
      (relations.foldl (storeStep entities throws) (g0, c, f)).2.1
          + (relations.foldl (storeStep entities throws) (g0, c, f)).2.2
        = c + f + relations.length := by
  induction relations with
  | nil => intro g0 c f; simp
  | cons r rest ih =>
    intro g0 c f
    simp only [List.foldl_cons, List.length_cons]
    by_cases hres : relResolves entities r = true
    · by_cases hthrow : throws (mkRelEdge entities r) = true
      · simp only [storeStep, if_pos hres, if_pos hthrow]
        rw [ih]
        omega
      · simp only [storeStep, if_pos hres, if_neg hthrow]
        rw [ih]
        omega
    · simp only [storeStep, if_neg hres]
      rw [ih]
      omega

theorem storeStep_graph (entities : EntityMap) (throws : RelEdge → Bool)
    (relations : List PendingRel) :
    ∀ (g0 : GraphState) (c f : ℕ),
      (relations.foldl (storeStep entities throws) (g0, c, f)).1
        = (relations.filter (relSucceeds entities throws)).foldl
            (fun g r => upsertRelationship g (mkRelEdge entities r)) g0 := by
  induction relations with
  | nil => intro g0 c f; simp
  | cons r rest ih =>
    intro g0 c f
    simp only [List.foldl_cons, List.filter_cons]
    by_cases hres : relResolves entities r = true
    · by_cases hthrow : throws (mkRelEdge entities r) = true
      · have hsucc : relSucceeds entities throws r = false := by
          simp [relSucceeds, hres, hthrow]
        simp only [storeStep, if_pos hres, if_pos hthrow, hsucc]
        rw [ih]
        simp
      · have hsucc : relSucceeds entities throws r = true := by
          simp [relSucceeds, hres, hthrow]
        simp only [storeStep, if_pos hres, if_neg hthrow, hsucc]
        rw [ih]
        simp
    · have hsucc : relSucceeds entities throws r = false := by
        simp [relSucceeds, hres]
      simp only [storeStep, if_neg hres, hsucc]
      rw [ih]
      simp

/-- The fixture for C7's concrete scenario: two accumulated entities and
three extracted relationships, the second of which has an unresolvable
target. -/
def c7Entities : EntityMap :=
  [("mustapha", ⟨"Mustapha", "Person", ""⟩),
   ("relaygraph", ⟨"RelayGraph", "Project", ""⟩)]

/-- Three pending relationships; the middle one's target `"zzz"` resolves
to no accumulated entity. -/
def c7Relations : List PendingRel :=
  [⟨"mustapha", "relaygraph", "BUILDS", "Mustapha builds RelayGraph"⟩,
   ⟨"mustapha", "zzz", "KNOWS", ""⟩,
   ⟨"relaygraph", "mustapha", "CREATED_BY", ""⟩]

/-- C7 — relationship endpoint failure is non-fatal and counted: for every
store state, throw oracle, entity map and relationship list, `storeInNeo4j`
(a total function — it never throws) returns `relationsCreated` equal to
the number of relationships that resolve and whose write succeeds,
`created + failed` equal to the number of relationships attempted, and a
graph in which exactly the successful relationships were written, in order
(siblings of a failed relationship are still written). In the concrete
3-relationship scenario with one unresolvable target, `relationCount = 2`. -/
theorem relationship_failure_nonfatal :
    (∀ (g : GraphState) (throws : RelEdge → Bool) (entities : EntityMap)
        (relations : List PendingRel),
      (storeInNeo4j g throws entities relations).2.1
          = relations.countP (relSucceeds entities throws)
        ∧ (storeInNeo4j g throws entities relations).2.1
            + (storeInNeo4j g throws entities relations).2.2 = relations.length
        ∧ (storeInNeo4j g throws entities relations).1
            = (relations.filter (relSucceeds entities throws)).foldl
                (fun g r => upsertRelationship g (mkRelEdge entities r))
                (upsertAllEntities g entities))
    ∧ (storeInNeo4j ⟨[], []⟩ (fun _ => false) c7Entities c7Relations).2.1 = 2
    ∧ (storeInNeo4j ⟨[], []⟩ (fun _ => false) c7Entities c7Relations).2.2 = 1 := by
  refine ⟨?gen, by decide, by decide⟩
  intro g throws entities relations
  unfold storeInNeo4j
  refine ⟨?c1, ?c2, ?c3⟩
  case c1 =>
    rw [storeStep_created]
    omega
  case c2 =>
    rw [storeStep_total]
    omega
  case c3 =>
    rw [storeStep_graph]

/-! ## Document store and `IngestionPipeline.ingest` -/

/-- A `relay_documents` row (metadata elided). -/
structure DocumentRec where
  id : String
  name : String
  contentHash : String
deriving DecidableEq, Repr

/-- A `relay_chunks` row. -/
structure ChunkRow where
  id : String
  documentId : String
  content : String
  embedding : List ℚ
  chunkIndex : ℕ
deriving DecidableEq, Repr

/-- The relational store's state. -/
structure PGState where
  documents : List DocumentRec
  chunks : List ChunkRow
deriving DecidableEq, Repr

/-- Both stores. -/
structure Stores where
  pg : PGState
  graph : GraphState
deriving DecidableEq, Repr

/-- `PostgresDriver.upsertDocument`: select by `content_hash`; return the
existing row's id with `isNew = false` and no write, else insert a new row
(`freshId` models the generated UUID) and return `isNew = true`. The hash
function (sha256) is an oracle. -/
def upsertDocument (hash : String → String) (freshId : String)
    (docName content : String) (s : PGState) : (String × Bool) × PGState :=
  match s.documents.find? (fun d => d.contentHash == hash content) with
  | some d => ((d.id, false), s)
  | none =>
    ((freshId, true),
      ⟨s.documents ++ [⟨freshId, docName, hash content⟩], s.chunks⟩)

/-- `IIngestionResult` (`processingTimeMs`, a wall-clock reading, is outside
the embedding). -/
structure IngestionResult where
  documentId : String
  isNewDocument : Bool
  chunkCount : ℕ
  entityCount : ℕ
  relationCount : ℕ
deriving DecidableEq, Repr

/-- `PostgresDriver.addChunks` for the pipeline's chunk batch: append one
row per chunk with its embedding and 0-based chunk index (row ids are
store-generated; the model derives them from the document id and index). -/
def addChunks (s : PGState) (docId : String) (contents : List String)
    (embed : String → List ℚ) : PGState :=
  ⟨s.documents,
    s.chunks ++ contents.enum.map
      (fun ci => ⟨docId ++ "-chunk-" ++ toString ci.1, docId, ci.2, embed ci.2, ci.1⟩)⟩

/-- `IngestionPipeline.ingest`: upsert the document by content hash and
return immediately with zero counts when it already exists; otherwise
chunk (the `chunker` oracle), return early on an empty chunking, else
embed and store the chunks, extract per chunk (the `extractOracle`; the
code's `extract` catches its own errors and returns an empty extraction,
so it is total), merge entities, and store entities and relationships in
the graph. `relationCount` is the number of relationships actually
created. -/
def ingest (hash : String → String) (freshId : String)
    (chunker : String → List String) (embed : String → List ℚ)
    (extractOracle : String → ExtractionResult) (relThrows : RelEdge → Bool)
    (text docName : String) (s : Stores) : IngestionResult × Stores :=
  match upsertDocument hash freshId docName text s.pg with
  | ((docId, false), pg1) => (⟨docId, false, 0, 0, 0⟩, ⟨pg1, s.graph⟩)
  | ((docId, true), pg1) =>
    let chunks := chunker text
    if chunks = [] then (⟨docId, true, 0, 0, 0⟩, ⟨pg1, s.graph⟩)
    else
      let pg2 := addChunks pg1 docId chunks embed
      let acc := extractFromChunks (chunks.map extractOracle)
      let stored := storeInNeo4j s.graph relThrows acc.1 acc.2
      (⟨docId, true, chunks.length, acc.1.length, stored.2.1⟩, ⟨pg2, stored.1⟩)

/-- C5 — idempotent ingestion: when a document with the same content hash
already exists, `ingest` returns that document's id with
`isNewDocument = false` and all counts zero, and leaves both stores
exactly unchanged — no chunking, embedding, extraction or store write
happens (the result does not depend on the `chunker`, `embed`,
`extractOracle` or `relThrows` oracles at all). -/
theorem ingest_idempotent (hash : String → String) (freshId : String)
    (chunker : String → List String) (embed : String → List ℚ)
    (extractOracle : String → ExtractionResult) (relThrows : RelEdge → Bool)
    (text docName : String) (s : Stores) (d : DocumentRec)
    (hdup : s.pg.documents.find? (fun doc => doc.contentHash == hash text) = some d) :
    ingest hash freshId chunker embed extractOracle relThrows text docName s
      = (⟨d.id, false, 0, 0, 0⟩, s) := by
  unfold ingest upsertDocument
  rw [hdup]

/-- Witness for C5: a store already holding the document `"hello world"`
(hash oracle: identity); re-ingesting returns the stored id, `isNewDocument
= false`, zero counts, and the unchanged store. -/
theorem ingest_idempotent_witness :
    ingest id "doc-2" (fun t => [t]) (fun _ => [1]) (fun _ => ⟨[], []⟩)
        (fun _ => false) "hello world" "Untitled"
        ⟨⟨[⟨"doc-1", "Greeting", "hello world"⟩], []⟩, ⟨[], []⟩⟩
      = (⟨"doc-1", false, 0, 0, 0⟩,
          ⟨⟨[⟨"doc-1", "Greeting", "hello world"⟩], []⟩, ⟨[], []⟩⟩) :=
  ingest_idempotent id "doc-2" (fun t => [t]) (fun _ => [1]) (fun _ => ⟨[], []⟩)
    (fun _ => false) "hello world" "Untitled"
    ⟨⟨[⟨"doc-1", "Greeting", "hello world"⟩], []⟩, ⟨[], []⟩⟩
    ⟨"doc-1", "Greeting", "hello world"⟩ (by decide)

/-! ## Extractor rollback (`src/modules/Extractor.ts`, `Extractor.process`) -/

/-- The legacy chunk store used by `Extractor` (`relay_chunks` of the
single-chunk driver): id and content. -/
structure ChunkStoreState where
  chunks : List (String × String)
deriving DecidableEq, Repr

/-- `pg.addChunk`: insert a row and return its generated id (`freshId`). -/
def addChunk (s : ChunkStoreState) (freshId content : String) :
    String × ChunkStoreState :=
  (freshId, ⟨s.chunks ++ [(freshId, content)]⟩)

/-- `pg.deleteChunk`: delete the row with the given id. -/
def deleteChunk (s : ChunkStoreState) (id : String) : ChunkStoreState :=
  ⟨s.chunks.filter (fun c => !(c.1 == id))⟩

/-- The retry loop of `Extractor.extract`: attempts `1..maxRetries` (the
`attempts` oracle gives each attempt's outcome); the first success returns,
the attempt numbered `maxRetries` rethrows its error, and a zero-retry
configuration falls through to the final error. -/
def extractRetryLoop (attempts : ℕ → Except String ExtractionResult)
    (maxRetries : ℕ) : List ℕ → Except String ExtractionResult
  | [] => .error "Extraction failed after all retries"
  | a :: rest =>
    match attempts a with
    | .ok r => .ok r
    | .error e =>
      if a = maxRetries then .error e
      else extractRetryLoop attempts maxRetries rest

/-- `Extractor.extract` with its bounded retries. -/
def extractWithRetries (attempts : ℕ → Except String ExtractionResult)
    (maxRetries : ℕ) : Except String ExtractionResult :=
  extractRetryLoop attempts maxRetries (List.range' 1 maxRetries)

/-- `Extractor.writeToGraph`: merge one node per extracted entity (slug
id), then create one edge per extracted relationship between the slugged
endpoints (the chunk-id provenance attached to nodes and edges is
elided). -/
def writeToGraph (g : GraphState) (data : ExtractionResult) : GraphState :=
  let g1 := data.entities.foldl
    (fun g e => upsertEntity g ⟨slugify e.name, e.name, e.type, e.description⟩) g
  data.relationships.foldl
    (fun g r => upsertRelationship g
      ⟨slugify r.source ++ "-" ++ r.relation ++ "-" ++ slugify r.target,
        slugify r.source, slugify r.target, r.relation, r.fact⟩) g1

/-- `Extractor.process`: embed and durably write the chunk, then try
extraction (with retries) and the graph write; on failure the chunk is
deleted before the error is rethrown. Returns the outcome together with
the final states of the chunk store and the graph. -/
def extractorProcess (pg : ChunkStoreState) (g : GraphState)
    (freshChunkId text : String)
    (attempts : ℕ → Except String ExtractionResult) (maxRetries : ℕ) :
    Except String String × ChunkStoreState × GraphState :=
  let added := addChunk pg freshChunkId text
  match extractWithRetries attempts maxRetries with
  | .ok extraction => (.ok added.1, added.2, writeToGraph g extraction)
  | .error e => (.error e, deleteChunk added.2 added.1, g)

/-- C8 — rollback on irrecoverable extraction failure: when every
extraction attempt fails (so `extract` rethrows after `maxRetries`),
`Extractor.process` deletes the chunk it had already durably written and
propagates the error: the chunk store and the graph end exactly as they
started, so no orphaned chunk is left behind. The freshness hypothesis
models the store generating an unused row id. -/
theorem extractor_rollback (pg : ChunkStoreState) (g : GraphState)
    (freshChunkId text : String)
    (attempts : ℕ → Except String ExtractionResult) (maxRetries : ℕ)
    (e : String)
    (hfresh : ∀ c ∈ pg.chunks, c.1 ≠ freshChunkId)
    (hfail : extractWithRetries attempts maxRetries = .error e) :
    extractorProcess pg g freshChunkId text attempts maxRetries
      = (.error e, pg, g) := by
  obtain ⟨pgl⟩ := pg
  have hstore : deleteChunk ⟨pgl ++ [(freshChunkId, text)]⟩ freshChunkId = ⟨pgl⟩ := by
    unfold deleteChunk
    congr 1
    simp only [List.filter_append]
    rw [List.filter_eq_self.mpr, List.filter_cons_of_neg (by simp), List.filter_nil,
      List.append_nil]
    intro c hc
    simpa using hfresh c hc
  unfold extractorProcess addChunk
  rw [hfail]
  simp only [hstore]

/-- Witness for C8: a store with one pre-existing chunk, an extraction that
fails on all three attempts — `process` returns the error and both stores
are unchanged. -/
theorem extractor_rollback_witness :
    extractorProcess ⟨[("c0", "old")]⟩ ⟨[], []⟩ "c1" "some text"
        (fun _ => .error "parse failure") 3
      = (.error "parse failure", ⟨[("c0", "old")]⟩, ⟨[], []⟩) :=
  extractor_rollback ⟨[("c0", "old")]⟩ ⟨[], []⟩ "c1" "some text"
    (fun _ => .error "parse failure") 3 "parse failure" (by decide) rfl

end RelayGraph
